import Mathlib

/-!
Verification of the Sokoban solver (`src/main.rs`).

This file gives a shallow embedding of the solver's data model and
algorithms — board parsing, pull-reachability dead-square analysis, room
decomposition, the Zobrist hash, the greedy assignment heuristic with its
(storeless) transposition table, and the best-first search loop — and
proves the specification's claims about them.

Modelling conventions:
* Rust machine integers (`i16`, `i32`, `u64`) are modelled as `Int`/`Nat`;
  `u64` XOR is `Nat` XOR (values stay below `2 ^ 64` whenever the inputs do).
* Rust `Vec` indexing that is guarded by an `is_valid` bounds check in the
  source is modelled with `List.getD` (the default is unreachable under the
  guard).  The one indexing operation the source performs *unguarded* —
  the Zobrist-table lookup in `calculate_zobrist_hash` — is modelled
  fallibly with `List.get?`, so a Rust panic surfaces as `none`.
* The `BinaryHeap` pop of a maximal element (minimal `(heuristic, path
  length)` under the source's reversed `Ord`) is modelled by `popMin`,
  which pops the first such minimum; the search loop is modelled with
  explicit fuel, and termination is proved by a measure argument.
* The per-puzzle random Zobrist table (`RandomState` in the source) is a
  parameter `gen : Nat → Nat × Nat` giving the (player, box) key pair of
  each cell.
-/

set_option maxRecDepth 100000

namespace Sokoban

/-- Board coordinate, mirroring the source's `Point { row: i16, col: i16 }`.
The machine integers are modelled as unbounded `Int`; every coordinate the
solver manipulates is far inside the `i16` range. -/
structure Point where
  row : Int
  col : Int
deriving DecidableEq

/-- DIR_OFFSETS from the source: up, down, left, right. -/
def dirOffsets : List (Int × Int) := [(-1, 0), (1, 0), (0, -1), (0, 1)]

/-- Offset of direction code `dir` (the source indexes `DIR_OFFSETS[dir]`
for `dir` in `0..4`; the default is unreachable). -/
def dirOffset (dir : Nat) : Int × Int := dirOffsets.getD dir (0, 1)

/-- DIR_CHARS from the source. -/
def dirChars : List Char := ['u', 'd', 'l', 'r']

/-- Move character of direction code `dir`. -/
def dirChar (dir : Nat) : Char := dirChars.getD dir 'r'

/-- Flat row-major cell index, mirroring `to_idx`: `(row * width + col) as
usize`.  Every use in the source is guarded by an `is_valid` check, under
which the sum is non-negative and `Int.toNat` is exact. -/
def idxOfRC (width : Nat) (r c : Int) : Nat := (r * (width : Int) + c).toNat

/-- Bounds check, mirroring `is_valid`. -/
def validRC (width height : Nat) (r c : Int) : Bool :=
  decide (0 ≤ r) && decide (r < (height : Int)) && decide (0 ≤ c) && decide (c < (width : Int))

/-- Rust's `str::lines` on the puzzle text, as a list of character lists:
split on the newline character, with no entry for a trailing final newline.
(The source's `\r\n` handling is irrelevant here: all inputs considered use
plain `\n` separators, and widths are byte lengths = char lengths for the
ASCII puzzle alphabet.) -/
def splitNL : List Char → List (List Char)
  | [] => [[]]
  | c :: cs =>
    let r := splitNL cs
    if c == '\n' then [] :: r
    else
      match r with
      | [] => [[c]]
      | l :: ls => (c :: l) :: ls

/-- The lines of the puzzle, see `splitNL`. -/
def rustLines (s : String) : List (List Char) :=
  let parts := splitNL s.data
  if parts.getLast? == some [] then parts.dropLast else parts

/-- One cell of the grid-building pass of `SokobanSolver::new`: `#` is a
wall (1), `.`/`+`/`*` a goal (2, also appended to the goal list), anything
else floor (0). -/
def scanCell (width row col : Nat) (ch : Char) (acc : List Nat × List Point) :
    List Nat × List Point :=
  let idx := row * width + col
  if ch == '#' then (acc.1.set idx 1, acc.2)
  else if ch == '.' || ch == '+' || ch == '*' then
    (acc.1.set idx 2, acc.2 ++ [⟨(row : Int), (col : Int)⟩])
  else (acc.1.set idx 0, acc.2)

/-- One pass over the puzzle grid building the flat cell map and the goal
list in scan order, mirroring the loop in `SokobanSolver::new`. -/
def scanMapGoals (width : Nat) (lines : List (List Char)) (map0 : List Nat) :
    List Nat × List Point :=
  lines.enum.foldl
    (fun acc rl =>
      rl.2.enum.foldl (fun acc cc => scanCell width rl.1 cc.1 cc.2 acc) acc)
    (map0, [])

/-- One `pull_target` expansion of the dead-square flood: for each of the
four directions, the candidate box origin `o = t + d` and the pulling
player cell `p = o + d` are tested; if both are in-bounds and non-wall and
`o` is not yet live, `o` is marked live and enqueued.  Mirrors the body of
the `while let` loop in `precompute_static_deadlocks`. -/
def pullStepDirs (width height : Nat) (map : List Nat) (t : Point)
    (acc : List Bool × List Point) : List Bool × List Point :=
  dirOffsets.foldl
    (fun (acc : List Bool × List Point) d =>
      let o : Point := ⟨t.row + d.1, t.col + d.2⟩
      let p : Point := ⟨o.row + d.1, o.col + d.2⟩
      let oIdx := idxOfRC width o.row o.col
      if validRC width height o.row o.col && validRC width height p.row p.col
          && (map.getD oIdx 1 != 1) && (map.getD (idxOfRC width p.row p.col) 1 != 1)
          && !(acc.1.getD oIdx false) then
        (acc.1.set oIdx true, acc.2 ++ [o])
      else acc)
    acc

/-- The breadth-first pull flood of `precompute_static_deadlocks`, with
explicit fuel (the queue strictly shrinks in the measure
`|queue| + (cells − marked)`, so the fuel chosen in
`precomputeStaticDeadlocks` always suffices). -/
def deadLoop (width height : Nat) (map : List Nat) :
    Nat → List Point → List Bool → List Bool
  | 0, _, live => live
  | _ + 1, [], live => live
  | fuel + 1, t :: q, live =>
    let s := pullStepDirs width height map t (live, [])
    deadLoop width height map fuel (q ++ s.2) s.1

/-- The live-square stage of `precompute_static_deadlocks`: mark and
enqueue every goal, then run the pull flood to exhaustion (the fuel
exceeds the measure `|queue| + (cells − marked)` of the seeded
configuration, see `deadLoop`). -/
def liveSquares (width height : Nat) (map : List Nat) (goals : List Point) :
    List Bool :=
  let size := width * height
  let live0 := goals.foldl (fun lv g => lv.set (idxOfRC width g.row g.col) true)
    (List.replicate size false)
  deadLoop width height map (goals.length + size + 1) goals live0

/-- `precompute_static_deadlocks`: seed the flood with every goal, run it,
and mark dead every non-wall cell left unmarked. -/
def precomputeStaticDeadlocks (width height : Nat) (map : List Nat)
    (goals : List Point) : List Bool :=
  let live := liveSquares width height map goals
  (List.range (width * height)).map
    (fun i => (map.getD i 1 != 1) && !(live.getD i false))

/-- `flood_fill_room`: label the connected component of the queue's cells
with `roomId`, counting goal cells as they are dequeued.  Fuel as in
`deadLoop`. -/
def floodFillRoom (width height : Nat) (map : List Nat) (goalGrid : List Bool)
    (roomId : Nat) : Nat → List Point → List Nat → Int → List Nat × Int
  | 0, _, rooms, cnt => (rooms, cnt)
  | _ + 1, [], rooms, cnt => (rooms, cnt)
  | fuel + 1, cur :: q, rooms, cnt =>
    let cnt' := if goalGrid.getD (idxOfRC width cur.row cur.col) false then cnt + 1 else cnt
    let s := dirOffsets.foldl
      (fun (acc : List Nat × List Point) d =>
        let np : Point := ⟨cur.row + d.1, cur.col + d.2⟩
        let nIdx := idxOfRC width np.row np.col
        if validRC width height np.row np.col && (map.getD nIdx 1 != 1)
            && (acc.1.getD nIdx 255 == 255) then
          (acc.1.set nIdx roomId, acc.2 ++ [np])
        else acc)
      (rooms, [])
    floodFillRoom width height map goalGrid roomId fuel (q ++ s.2) s.1 cnt'

/-- `precompute_rooms`: scan cells in row-major order, flooding a fresh room
id from every unlabeled non-wall cell and recording each room's goal
count.  (The source's `u8` room id is modelled as `Nat`; boards with more
than 255 rooms, where the `u8` would overflow, are outside every use in
this file.) -/
def precomputeRooms (width height : Nat) (map : List Nat) (goalGrid : List Bool) :
    List Nat × List Int :=
  let size := width * height
  let res := (List.range height).foldl
    (fun acc row =>
      (List.range width).foldl
        (fun (acc : List Nat × List Int × Nat) col =>
          let idx := row * width + col
          if (map.getD idx 1 != 1) && (acc.1.getD idx 255 == 255) then
            let fr := floodFillRoom width height map goalGrid acc.2.2 (size + 2)
              [⟨(row : Int), (col : Int)⟩] (acc.1.set idx acc.2.2) 0
            (fr.1, acc.2.1 ++ [fr.2], acc.2.2 + 1)
          else acc)
        acc)
    ((List.replicate size 255 : List Nat), ([] : List Int), 0)
  (res.1, res.2.1)

/-- The precomputed, read-only solver state (`struct SokobanSolver`).  The
`u64` bitsets `goal_grid` and `dead_squares` are modelled with one `Bool`
per cell index (bit `i % 64` of word `i / 64` becomes entry `i`). -/
structure Solver where
  width : Nat
  height : Nat
  map : List Nat
  goals : List Point
  goalGrid : List Bool
  deadSquares : List Bool
  roomIds : List Nat
  goalCountsByRoom : List Int
  zobristTable : List (Nat × Nat)

/-- `SokobanSolver::new`: parse the grid, build the goal bitset, draw the
Zobrist table (`gen` stands for the source's `RandomState` entropy source)
and run both precomputations. -/
def mkSolver (puzzle : String) (gen : Nat → Nat × Nat) : Solver :=
  let lines := rustLines puzzle
  let height := lines.length
  let width := (lines.map List.length).foldl max 0
  let size := width * height
  let mg := scanMapGoals width lines (List.replicate size 0)
  let goalGrid := mg.2.foldl (fun gg g => gg.set (idxOfRC width g.row g.col) true)
    (List.replicate size false)
  let rp := precomputeRooms width height mg.1 goalGrid
  { width := width
    height := height
    map := mg.1
    goals := mg.2
    goalGrid := goalGrid
    deadSquares := precomputeStaticDeadlocks width height mg.1 mg.2
    roomIds := rp.1
    goalCountsByRoom := rp.2
    zobristTable := (List.range size).map gen }

/-- One cell of `parse_puzzle`'s scan: `@`/`+` replace the player (last in
scan order wins), `$`/`*` append a box. -/
def parseCell (row col : Nat) (ch : Char) (acc : Point × List Point) :
    Point × List Point :=
  if ch == '@' || ch == '+' then (⟨(row : Int), (col : Int)⟩, acc.2)
  else if ch == '$' || ch == '*' then (acc.1, acc.2 ++ [⟨(row : Int), (col : Int)⟩])
  else acc

/-- `parse_puzzle`'s scan for the player and the boxes; the player defaults
to `(0, 0)`. -/
def parseStart (puzzle : String) : Point × List Point :=
  (rustLines puzzle).enum.foldl
    (fun acc rl =>
      rl.2.enum.foldl (fun acc cc => parseCell rl.1 cc.1 cc.2 acc) acc)
    (⟨0, 0⟩, [])

def Solver.isValid (S : Solver) (r c : Int) : Bool := validRC S.width S.height r c

def Solver.toIdx (S : Solver) (r c : Int) : Nat := idxOfRC S.width r c

/-- Cell read `self.map[idx]`; all source reads are under an `is_valid`
guard, so the default is unreachable there. -/
def Solver.mapAt (S : Solver) (i : Nat) : Nat := S.map.getD i 1

/-- Goal bitset read (`goal_grid` bit `i`). -/
def Solver.goalAt (S : Solver) (i : Nat) : Bool := S.goalGrid.getD i false

/-- Dead-square bitset read (`dead_squares` bit `i`). -/
def Solver.deadAt (S : Solver) (i : Nat) : Bool := S.deadSquares.getD i false

/-- Room label read (`room_ids[i]`, 255 = unlabeled/wall sentinel). -/
def Solver.roomAt (S : Solver) (i : Nat) : Nat := S.roomIds.getD i 255

/-- Zobrist table read used in the places the source guards by `is_valid`;
the source's direct `zobrist_table[idx]` with no guard is `List.get?`
in `calculateZobristHash` below. -/
def Solver.ztAt (S : Solver) (i : Nat) : Nat × Nat := S.zobristTable.getD i (0, 0)

/-- `is_solved_boxes`: every box sits on a goal-bitset cell. -/
def Solver.isSolvedBoxes (S : Solver) (boxes : List Point) : Bool :=
  boxes.all (fun b => S.goalAt (S.toIdx b.row b.col))

/-- `boxes_zobrist_key`: XOR of the box keys of all box cells. -/
def Solver.boxesZobristKey (S : Solver) (boxes : List Point) : Nat :=
  boxes.foldl (fun k b => k ^^^ (S.ztAt (S.toIdx b.row b.col)).2) 0

/-- `find_goal_index`: position of the goal with the given coordinates. -/
def Solver.findGoalIndex (S : Solver) (r c : Int) : Option Nat :=
  S.goals.findIdx? (fun g => g.row == r && g.col == c)

/-- One entry of the transposition table.  `TranspositionTable::new(1 << 20)`
fills `entries` with `(0, 0, 0)` and sets `age = 0`; `solve` never calls
`store` or `next_age`, so every entry stays `(0, 0, 0)` for the whole run. -/
def ttEntry : Nat × Int × Nat := (0, 0, 0)

/-- `TranspositionTable::probe` on the (never written) table: the slot is
`hash % size` and the hit condition is `entry.0 == hash && entry.2 == age`. -/
def ttProbe (hash : Nat) : Option Int :=
  if ttEntry.1 == hash && ttEntry.2.2 == 0 then some ttEntry.2.1 else none

/-- The obstacle test of `is_frozen_box_ultra_fast`: out of bounds, wall, or
occupied by a box of the current state. -/
def Solver.hasObstacle (S : Solver) (boxes : List Point) (r c : Int) : Bool :=
  if !(S.isValid r c) then true
  else if S.mapAt (S.toIdx r c) == 1 then true
  else boxes.any (fun b => b.row == r && b.col == c)

/-- `is_frozen_box_ultra_fast`: a box off goal that is blocked on at least
one vertical and one horizontal side. -/
def Solver.isFrozenBoxUltraFast (S : Solver) (boxes : List Point) (r c : Int) : Bool :=
  if S.goalAt (S.toIdx r c) then false
  else
    (S.hasObstacle boxes (r - 1) c || S.hasObstacle boxes (r + 1) c)
      && (S.hasObstacle boxes r (c - 1) || S.hasObstacle boxes r (c + 1))

/-- Manhattan distance of the heuristic (`(dr).abs() + (dc).abs()` as
`i32`). -/
def manhattan (b g : Point) : Int :=
  ((b.row - g.row).natAbs : Int) + ((b.col - g.col).natAbs : Int)

/-- The inner goal scan of `calculate_heuristic` for one off-goal box:
running minimum distance (initially `i32::MAX = 2 ^ 31 - 1`) over the
goals whose mask bit is unset, with the first strict improvement winning. -/
def bestGoal (S : Solver) (mask : Nat) (b : Point) : Int × Option Nat :=
  S.goals.enum.foldl
    (fun (st : Int × Option Nat) g =>
      if mask &&& (1 <<< g.1) == 0 then
        if manhattan b g.2 < st.1 then (manhattan b g.2, some g.1) else st
      else st)
    (2 ^ 31 - 1, none)

/-- Processing of one box inside `calculate_heuristic`'s main loop.  The
accumulator is `(total_dist, used_goal_mask, boxes_on_goals)`. -/
def heuristicStep (S : Solver) (boxes : List Point) (acc : Int × Nat × Nat)
    (b : Point) : Int × Nat × Nat :=
  let idx := S.toIdx b.row b.col
  if S.goalAt idx then
    let mask :=
      match S.findGoalIndex b.row b.col with
      | some gi => acc.2.1 ||| (1 <<< gi)
      | none => acc.2.1
    (acc.1, mask, acc.2.2 + 1)
  else
    let total := if S.isFrozenBoxUltraFast boxes b.row b.col then acc.1 + 30 else acc.1
    match (bestGoal S acc.2.1 b).2 with
    | some i => (total + (bestGoal S acc.2.1 b).1, acc.2.1 ||| (1 <<< i), acc.2.2)
    | none => (total, acc.2.1, acc.2.2)

/-- `calculate_heuristic`: probe the (inert) transposition table, else run
the greedy nearest-unused-goal assignment, returning 0 when every box is
on a goal. -/
def Solver.calculateHeuristic (S : Solver) (boxes : List Point) : Int :=
  match ttProbe (S.boxesZobristKey boxes) with
  | some cached => cached
  | none =>
    let r := boxes.foldl (heuristicStep S boxes) (0, 0, 0)
    if r.2.2 == boxes.length then 0 else r.1

/-- `is_room_deadlock`: count boxes per room and compare with the room's
goal count. -/
def Solver.isRoomDeadlock (S : Solver) (boxes : List Point) : Bool :=
  let counts := boxes.foldl
    (fun (cs : List Int) b =>
      let rid := S.roomAt (S.toIdx b.row b.col)
      if rid != 255 then cs.set rid (cs.getD rid 0 + 1) else cs)
    (List.replicate S.goalCountsByRoom.length 0)
  (counts.zip S.goalCountsByRoom).any (fun p => decide (p.2 < p.1))

/-- `calculate_zobrist_hash`: the from-scratch hash.  The source indexes the
Zobrist table with *no* bounds guard here, so the lookup is modelled with
`List.get?`: `none` is the modelled Rust panic. -/
def Solver.calculateZobristHash (S : Solver) (player : Point) (boxes : List Point) :
    Option Nat := do
  let pe ← S.zobristTable.get? (S.toIdx player.row player.col)
  boxes.foldlM
    (fun h b => do
      let be ← S.zobristTable.get? (S.toIdx b.row b.col)
      pure (h ^^^ be.2))
    pe.1

/-- `calculate_zobrist_hash_incremental`: XOR out the old player key, XOR in
the new player key, and on a push XOR out/in the pushed box's keys.  (These
lookups are reached only for cells the search loop has bounds-checked.) -/
def Solver.calculateZobristHashIncremental (S : Solver) (oldHash : Nat)
    (oldPlayer newPlayer : Point) (oldBox newBox : Option Point) : Nat :=
  let h1 := oldHash ^^^ (S.ztAt (S.toIdx oldPlayer.row oldPlayer.col)).1
  let h2 := h1 ^^^ (S.ztAt (S.toIdx newPlayer.row newPlayer.col)).1
  let h3 :=
    match oldBox with
    | some b => h2 ^^^ (S.ztAt (S.toIdx b.row b.col)).2
    | none => h2
  match newBox with
  | some b => h3 ^^^ (S.ztAt (S.toIdx b.row b.col)).2
  | none => h3

/-- Index of the (first) box at a cell, mirroring the source's
`boxes.iter().position(|b| b.row == r && b.col == c)`. -/
def findBoxIdx (boxes : List Point) (p : Point) : Option Nat :=
  boxes.findIdx? (fun b => b.row == p.row && b.col == p.col)

/-- A search node (`struct State`): box list, player, path of direction
codes, cached heuristic and Zobrist hash. -/
structure State where
  boxes : List Point
  player : Point
  path : List Nat
  heuristic : Int
  hash : Nat
deriving DecidableEq

/-- The source's `Ord for State` reversed: `s` precedes `t` when its
heuristic is smaller, with shorter path breaking ties.  `BinaryHeap::pop`
returns a maximum under the source's order = a minimum under this one. -/
def stateLE (s t : State) : Bool :=
  decide (s.heuristic < t.heuristic)
    || (decide (s.heuristic = t.heuristic) && decide (s.path.length ≤ t.path.length))

/-- Pop the first `(heuristic, path length)`-minimal state of the list,
modelling `BinaryHeap::pop` (the heap's choice among equal keys is
unspecified in Rust; this model fixes the first minimum). -/
def popMin : List State → Option (State × List State)
  | [] => none
  | s :: rest =>
    match popMin rest with
    | none => some (s, [])
    | some (m, rest') => if stateLE s m then some (s, rest) else some (m, s :: rest')

/-- Successor generation for one popped state: the body of the `for dir in
0..4` loop of `solve`, with every `continue` a `none`.  `visited` is the
set *after* the current state's hash was inserted, as in the source. -/
def Solver.expand (S : Solver) (cur : State) (visited : Finset Nat) : List State :=
  (List.range 4).filterMap (fun dir =>
    let d := dirOffset dir
    let nr := cur.player.row + d.1
    let nc := cur.player.col + d.2
    if !(S.isValid nr nc) then none
    else if S.mapAt (S.toIdx nr nc) == 1 then none
    else
      let newPlayer : Point := ⟨nr, nc⟩
      match findBoxIdx cur.boxes newPlayer with
      | some i =>
        let pr := nr + d.1
        let pc := nc + d.2
        if !(S.isValid pr pc) then none
        else if S.mapAt (S.toIdx pr pc) == 1 then none
        else if cur.boxes.any (fun b => b.row == pr && b.col == pc) then none
        else if S.deadAt (S.toIdx pr pc) then none
        else
          let oldBox := cur.boxes.getD i ⟨0, 0⟩
          let newBoxes := cur.boxes.set i ⟨pr, pc⟩
          if S.isRoomDeadlock newBoxes then none
          else
            let newHash := S.calculateZobristHashIncremental cur.hash cur.player
              newPlayer (some oldBox) (some ⟨pr, pc⟩)
            if newHash ∈ visited then none
            else some ⟨newBoxes, newPlayer, cur.path ++ [dir],
              S.calculateHeuristic newBoxes, newHash⟩
      | none =>
        let newHash := S.calculateZobristHashIncremental cur.hash cur.player
          newPlayer none none
        if newHash ∈ visited then none
        else some ⟨cur.boxes, newPlayer, cur.path ++ [dir],
          S.calculateHeuristic cur.boxes, newHash⟩)

/-- The search loop of `solve`, with explicit fuel; returns the winning path
(direction codes) or `[]` when the heap empties, paired with the list of
every state ever pushed onto the heap (the trace; the caller seeds it with
the start state).  `none` = out of fuel, shown unreachable for the fuel
`solveFuel` below. -/
def Solver.runLoop (S : Solver) :
    Nat → List State → Finset Nat → List State → Option (List Nat × List State)
  | 0, _, _, _ => none
  | fuel + 1, heap, visited, trace =>
    match popMin heap with
    | none => some ([], trace)
    | some (cur, rest) =>
      if S.isSolvedBoxes cur.boxes then some (cur.path, trace)
      else if cur.hash ∈ visited then S.runLoop fuel rest visited trace
      else
        let visited' := insert cur.hash visited
        let succs := S.expand cur visited'
        S.runLoop fuel (rest ++ succs) visited' (trace ++ succs)

/-- Fuel that always suffices: one more than the measure
`|heap| + 4 * (2 ^ 64 − |visited|)` of the initial configuration. -/
def solveFuel : Nat := 4 * 2 ^ 64 + 2

/-- The start state built at the top of `solve`. -/
def initState (S : Solver) (player : Point) (boxes : List Point) (h0 : Nat) : State :=
  ⟨boxes, player, [], S.calculateHeuristic boxes, h0⟩

/-- `solve`, but also returning the trace of pushed states. -/
def Solver.solveTrace (S : Solver) (player : Point) (boxes : List Point) :
    Option (List Nat × List State) :=
  (S.calculateZobristHash player boxes).bind (fun h0 =>
    S.runLoop solveFuel [initState S player boxes h0] ∅ [initState S player boxes h0])

/-- Direction codes to the output move string (`DIR_CHARS` collect). -/
def codesToString (codes : List Nat) : String := String.mk (codes.map dirChar)

/-- `SokobanSolver::solve`: `none` models the panic of the unguarded start
Zobrist lookup; otherwise the loop's result string. -/
def Solver.solve (S : Solver) (player : Point) (boxes : List Point) : Option String :=
  (S.solveTrace player boxes).map (fun r => codesToString r.1)

/-- The whole program on a puzzle text: `parse_puzzle` then `solve`. -/
def solveTraceP (puzzle : String) (gen : Nat → Nat × Nat) :
    Option (List Nat × List State) :=
  (mkSolver puzzle gen).solveTrace (parseStart puzzle).1 (parseStart puzzle).2

/-- The program's output string on a puzzle text (`none` = panic). -/
def solveP (puzzle : String) (gen : Nat → Nat × Nat) : Option String :=
  (solveTraceP puzzle gen).map (fun r => codesToString r.1)

/-- One replay step (the claims' replay semantics): the player moves one
cell in the direction; if a box sits on the target cell, that box moves one
further cell in the same direction. -/
def applyMove (st : Point × List Point) (dir : Nat) : Point × List Point :=
  let d := dirOffset dir
  let p : Point := ⟨st.1.row + d.1, st.1.col + d.2⟩
  match findBoxIdx st.2 p with
  | some i => (p, st.2.set i ⟨p.row + d.1, p.col + d.2⟩)
  | none => (p, st.2)

/-- Replay a list of direction codes from a start configuration. -/
def replayCodes (p0 : Point) (b0 : List Point) (codes : List Nat) : Point × List Point :=
  codes.foldl applyMove (p0, b0)

/-- Decode a move character back to its direction code. -/
def charToDir (ch : Char) : Nat :=
  if ch == 'u' then 0 else if ch == 'd' then 1 else if ch == 'l' then 2 else 3

/-- Replay an output move string character by character. -/
def replayString (p0 : Point) (b0 : List Point) (s : String) : Point × List Point :=
  replayCodes p0 b0 (s.data.map charToDir)

/-- The specification's least fixed point of pull reachability: every goal
is live, and if `t` is live and both `o = t + d` and `o + d` are in-bounds
non-wall cells, then `o` is live. -/
inductive Live (width height : Nat) (map : List Nat) (goals : List Point) : Point → Prop
  | goal (g : Point) (hg : g ∈ goals) : Live width height map goals g
  | pull (t : Point) (d : Int × Int) (hd : d ∈ dirOffsets)
      (ht : Live width height map goals t)
      (hvo : validRC width height (t.row + d.1) (t.col + d.2) = true)
      (hvp : validRC width height (t.row + d.1 + d.1) (t.col + d.2 + d.2) = true)
      (hmo : map.getD (idxOfRC width (t.row + d.1) (t.col + d.2)) 1 ≠ 1)
      (hmp : map.getD (idxOfRC width (t.row + d.1 + d.1) (t.col + d.2 + d.2)) 1 ≠ 1) :
      Live width height map goals ⟨t.row + d.1, t.col + d.2⟩

/-! ### Basic list and bit helpers -/

theorem getD_set_ne {α : Type} (l : List α) (i j : Nat) (v d : α) (h : i ≠ j) :
    (l.set i v).getD j d = l.getD j d := by
  simp [List.getD, List.getElem?_set_ne h]

theorem getD_set_self {α : Type} (l : List α) (i : Nat) (v d : α)
    (h : i < l.length) : (l.set i v).getD i d = v := by
  simp [List.getD, List.getElem?_set_self', h, List.getElem?_eq_getElem]

theorem getD_true_lt_length {l : List Bool} {i : Nat}
    (h : l.getD i false = true) : i < l.length := by
  by_contra hc
  push_neg at hc
  rw [List.getD, List.get?_eq_getElem?, List.getElem?_eq_none (by omega)] at h
  simp at h

theorem getD_map_range {α : Type} (n i : Nat) (h : i < n) (f : Nat → α) (d : α) :
    ((List.range n).map f).getD i d = f i := by
  simp [List.getD, List.getElem?_map, List.getElem?_range h]

theorem getD_eq_get {α : Type} (l : List α) (i : Nat) (d : α) (h : i < l.length) :
    l.getD i d = l.get ⟨i, h⟩ := by
  simp [List.getD, List.getElem?_eq_getElem h, List.get_eq_getElem]

theorem getD_of_ge_length {α : Type} (l : List α) (i : Nat) (d : α) (h : l.length ≤ i) :
    l.getD i d = d := by
  rw [List.getD, List.get?_eq_getElem?, List.getElem?_eq_none (by omega)]
  rfl

theorem count_true_set {l : List Bool} {i : Nat} (h : i < l.length)
    (hf : l.getD i false = false) : (l.set i true).count true = l.count true + 1 := by
  induction l generalizing i with
  | nil => simp at h
  | cons a tl ih =>
    cases i with
    | zero =>
      simp [List.getD] at hf
      simp [List.set, hf, List.count_cons]
    | succ n =>
      simp at h
      simp [List.getD] at hf
      have := ih (i := n) (by omega) (by simp [List.getD, hf])
      simp [List.set, List.count_cons, this]
      cases a <;> simp <;> omega

theorem xor_cancel_left (a b : Nat) : a ^^^ (a ^^^ b) = b := by
  rw [← Nat.xor_assoc, Nat.xor_self, Nat.zero_xor]

theorem xor_left_comm (a b c : Nat) : a ^^^ (b ^^^ c) = b ^^^ (a ^^^ c) := by
  rw [← Nat.xor_assoc, Nat.xor_comm a b, Nat.xor_assoc]

/-- `idxOfRC` on an in-bounds coordinate, in `Nat` terms. -/
theorem idxOfRC_valid {width height : Nat} {r c : Int}
    (h : validRC width height r c = true) :
    idxOfRC width r c = r.toNat * width + c.toNat ∧ idxOfRC width r c < width * height := by
  simp only [validRC, Bool.and_eq_true, decide_eq_true_eq] at h
  obtain ⟨⟨⟨hr0, hrh⟩, hc0⟩, hcw⟩ := h
  have hr : (r.toNat : Int) = r := Int.toNat_of_nonneg hr0
  have hc : (c.toNat : Int) = c := Int.toNat_of_nonneg hc0
  have key : idxOfRC width r c = r.toNat * width + c.toNat := by
    unfold idxOfRC
    rw [← hr, ← hc]
    rw [show ((r.toNat : Int) * (width : Int) + (c.toNat : Int))
        = ((r.toNat * width + c.toNat : Nat) : Int) by push_cast; ring]
    exact Int.toNat_natCast _
  refine ⟨key, ?_⟩
  rw [key]
  have hr' : r.toNat < height := by omega
  have hc' : c.toNat < width := by omega
  calc r.toNat * width + c.toNat < r.toNat * width + width := by omega
    _ = (r.toNat + 1) * width := by ring
    _ ≤ height * width := Nat.mul_le_mul_right width (by omega)
    _ = width * height := Nat.mul_comm height width

/-- `idxOfRC` is injective on in-bounds coordinates. -/
theorem idxOfRC_inj {width height : Nat} {r₁ c₁ r₂ c₂ : Int}
    (h₁ : validRC width height r₁ c₁ = true) (h₂ : validRC width height r₂ c₂ = true)
    (heq : idxOfRC width r₁ c₁ = idxOfRC width r₂ c₂) : r₁ = r₂ ∧ c₁ = c₂ := by
  have e₁ := (idxOfRC_valid h₁).1
  have e₂ := (idxOfRC_valid h₂).1
  simp only [validRC, Bool.and_eq_true, decide_eq_true_eq] at h₁ h₂
  obtain ⟨⟨⟨hr0, hrh⟩, hc0⟩, hcw⟩ := h₁
  obtain ⟨⟨⟨hr0', hrh'⟩, hc0'⟩, hcw'⟩ := h₂
  rw [e₁, e₂] at heq
  have hc₁ : c₁.toNat < width := by omega
  have hc₂ : c₂.toNat < width := by omega
  have hdiv : r₁.toNat = r₂.toNat := by
    have d₁ : (r₁.toNat * width + c₁.toNat) / width = r₁.toNat := by
      rw [Nat.mul_comm r₁.toNat width, Nat.mul_add_div (by omega)]
      simp [Nat.div_eq_of_lt hc₁]
    have d₂ : (r₂.toNat * width + c₂.toNat) / width = r₂.toNat := by
      rw [Nat.mul_comm r₂.toNat width, Nat.mul_add_div (by omega)]
      simp [Nat.div_eq_of_lt hc₂]
    rw [← d₁, ← d₂, heq]
  constructor
  · omega
  · have : c₁.toNat = c₂.toNat := by
      have := heq
      rw [hdiv] at this
      omega
    omega

/-! ### Zobrist hash: from-scratch characterization and the incremental
update law (claim C7) -/

/-- The value of the from-scratch Zobrist hash when every lookup is in
bounds: player key XOR the fold of box keys. -/
def zobristOf (S : Solver) (player : Point) (boxes : List Point) : Nat :=
  boxes.foldl (fun h b => h ^^^ (S.ztAt (S.toIdx b.row b.col)).2)
    (S.ztAt (S.toIdx player.row player.col)).1

theorem ztAt_eq_get {S : Solver} {i : Nat} (h : i < S.zobristTable.length) :
    S.zobristTable.get? i = some (S.ztAt i) := by
  rw [List.get?_eq_getElem?, List.getElem?_eq_getElem h, Solver.ztAt,
    getD_eq_get _ _ _ h, List.get_eq_getElem]

theorem foldlM_hash_eq_some {S : Solver} :
    ∀ (boxes : List Point) (a h : Nat),
      (boxes.foldlM
        (fun h b => (S.zobristTable.get? (S.toIdx b.row b.col)).bind
          (fun be => pure (h ^^^ be.2))) a : Option Nat) = some h ↔
      ((∀ b ∈ boxes, S.toIdx b.row b.col < S.zobristTable.length) ∧
        h = boxes.foldl (fun h b => h ^^^ (S.ztAt (S.toIdx b.row b.col)).2) a) := by
  intro boxes
  induction boxes with
  | nil => simp [List.foldlM, eq_comm]
  | cons b bs ih =>
    intro a h
    rw [List.foldlM_cons]
    by_cases hlen : S.toIdx b.row b.col < S.zobristTable.length
    · have hb : S.zobristTable.get? (S.toIdx b.row b.col)
          = some (S.ztAt (S.toIdx b.row b.col)) := ztAt_eq_get hlen
      simp only [Option.pure_def] at ih ⊢
      simp only [hb, Option.bind_eq_bind, Option.some_bind]
      rw [ih]
      constructor
      · rintro ⟨hmem, hval⟩
        refine ⟨?_, by simpa using hval⟩
        intro x hx
        rcases List.mem_cons.mp hx with rfl | hx
        · exact hlen
        · exact hmem x hx
      · rintro ⟨hmem, hval⟩
        exact ⟨fun x hx => hmem x (List.mem_cons_of_mem _ hx), by simpa using hval⟩
    · have hb : S.zobristTable.get? (S.toIdx b.row b.col) = none := by
        rw [List.get?_eq_getElem?, List.getElem?_eq_none (by omega)]
      simp only [Option.pure_def] at ih ⊢
      simp only [hb, Option.bind_eq_bind, Option.none_bind]
      constructor
      · intro hcon
        simp at hcon
      · rintro ⟨hmem, -⟩
        exact absurd (hmem b (List.mem_cons_self b bs)) hlen

theorem calcZobristHash_eq_some_iff {S : Solver} {p : Point} {boxes : List Point} {h : Nat} :
    S.calculateZobristHash p boxes = some h ↔
      (S.toIdx p.row p.col < S.zobristTable.length ∧
       (∀ b ∈ boxes, S.toIdx b.row b.col < S.zobristTable.length) ∧
       h = zobristOf S p boxes) := by
  rw [Solver.calculateZobristHash]
  by_cases hlen : S.toIdx p.row p.col < S.zobristTable.length
  · have hp : S.zobristTable.get? (S.toIdx p.row p.col)
        = some (S.ztAt (S.toIdx p.row p.col)) := ztAt_eq_get hlen
    have hfold := @foldlM_hash_eq_some S
    simp only [Option.pure_def] at hfold ⊢
    simp only [hp, Option.bind_eq_bind, Option.some_bind]
    rw [hfold]
    unfold zobristOf
    tauto
  · have hp : S.zobristTable.get? (S.toIdx p.row p.col) = none := by
      rw [List.get?_eq_getElem?, List.getElem?_eq_none (by omega)]
    simp only [hp, Option.bind_eq_bind, Option.none_bind]
    constructor
    · intro hcon
      simp at hcon
    · rintro ⟨hcon, -, -⟩
      exact absurd hcon hlen

theorem foldl_xor_init (f : Point → Nat) :
    ∀ (l : List Point) (x : Nat),
      l.foldl (fun h b => h ^^^ f b) x = x ^^^ l.foldl (fun h b => h ^^^ f b) 0 := by
  intro l
  induction l with
  | nil => simp
  | cons a tl ih =>
    intro x
    rw [List.foldl_cons, List.foldl_cons, ih (x ^^^ f a), ih (0 ^^^ f a),
      Nat.zero_xor, Nat.xor_assoc]

theorem foldl_xor_set (f : Point → Nat) :
    ∀ (l : List Point) (i : Nat) (v : Point) (h : i < l.length),
      (l.set i v).foldl (fun h b => h ^^^ f b) 0 =
        (l.foldl (fun h b => h ^^^ f b) 0) ^^^ f (l.get ⟨i, h⟩) ^^^ f v := by
  intro l
  induction l with
  | nil => intro i v h; simp at h
  | cons a tl ih =>
    intro i v h
    cases i with
    | zero =>
      simp only [List.set, List.foldl_cons, List.get]
      rw [foldl_xor_init f tl (0 ^^^ f v), foldl_xor_init f tl (0 ^^^ f a)]
      simp [Nat.xor_assoc, Nat.xor_comm, xor_left_comm, xor_cancel_left,
        Nat.xor_self, Nat.xor_zero, Nat.zero_xor]
    | succ n =>
      simp only [List.set, List.foldl_cons, List.get]
      have hn : n < tl.length := by simpa using h
      rw [foldl_xor_init f (tl.set n v) (0 ^^^ f a), foldl_xor_init f tl (0 ^^^ f a),
        ih n v hn]
      simp [Nat.xor_assoc, Nat.xor_comm, xor_left_comm, xor_cancel_left,
        Nat.xor_self, Nat.xor_zero, Nat.zero_xor]

/-- Claim C7.  For a state whose stored hash is the from-scratch Zobrist
hash of its player and boxes, the incrementally updated hash of any one-step
transition equals the from-scratch hash of the successor: XOR out/in the
player keys for a walk, and additionally XOR out/in the pushed box's keys
for a push (the successor's box list replaces box `i` by `pos`). -/
theorem c7_hash_homomorphism (S : Solver) (p p' : Point) (boxes : List Point)
    (h : Nat) (i : Nat) (pos : Point)
    (hh : S.calculateZobristHash p boxes = some h)
    (hp' : S.toIdx p'.row p'.col < S.zobristTable.length)
    (hi : i < boxes.length)
    (hpos : S.toIdx pos.row pos.col < S.zobristTable.length) :
    S.calculateZobristHash p' boxes =
      some (S.calculateZobristHashIncremental h p p' none none) ∧
    S.calculateZobristHash p' (boxes.set i pos) =
      some (S.calculateZobristHashIncremental h p p' (some (boxes.get ⟨i, hi⟩)) (some pos)) := by
  obtain ⟨hp, hb, hval⟩ := calcZobristHash_eq_some_iff.mp hh
  have hKey : ∀ (q : Point) (bl : List Point),
      zobristOf S q bl = (S.ztAt (S.toIdx q.row q.col)).1 ^^^
        bl.foldl (fun h b => h ^^^ (S.ztAt (S.toIdx b.row b.col)).2) 0 := by
    intro q bl
    unfold zobristOf
    rw [foldl_xor_init]
  constructor
  · rw [calcZobristHash_eq_some_iff]
    refine ⟨hp', hb, ?_⟩
    rw [hKey p' boxes, hval, hKey p boxes, Solver.calculateZobristHashIncremental]
    simp [Nat.xor_assoc, Nat.xor_comm, xor_left_comm, xor_cancel_left,
      Nat.xor_self, Nat.xor_zero, Nat.zero_xor]
  · rw [calcZobristHash_eq_some_iff]
    refine ⟨hp', ?_, ?_⟩
    · intro b hbmem
      rcases List.mem_or_eq_of_mem_set hbmem with hmem | rfl
      · exact hb b hmem
      · exact hpos
    · rw [hKey p' (boxes.set i pos), foldl_xor_set _ boxes i pos hi, hval,
        hKey p boxes, Solver.calculateZobristHashIncremental]
      simp [Nat.xor_assoc, Nat.xor_comm, xor_left_comm, xor_cancel_left,
        Nat.xor_self, Nat.xor_zero, Nat.zero_xor]

/-! ### The heuristic at solved states (claim C8) -/

/-- The never-written transposition table can only ever report the cached
value 0. -/
theorem ttProbe_eq_some {h : Nat} {c : Int} (hp : ttProbe h = some c) : c = 0 := by
  unfold ttProbe ttEntry at hp
  split at hp
  · exact (Option.some_inj.mp hp).symm
  · exact absurd hp (by simp)

theorem heuristic_fold_ongoal (S : Solver) (bl : List Point) :
    ∀ (boxes : List Point) (acc : Int × Nat × Nat),
      (∀ b ∈ boxes, S.goalAt (S.toIdx b.row b.col) = true) →
      (boxes.foldl (heuristicStep S bl) acc).1 = acc.1 ∧
      (boxes.foldl (heuristicStep S bl) acc).2.2 = acc.2.2 + boxes.length := by
  intro boxes
  induction boxes with
  | nil => intro acc _; simp
  | cons b bs ih =>
    intro acc hall
    have hb : S.goalAt (S.toIdx b.row b.col) = true := hall b (List.mem_cons_self b bs)
    have h1 : (heuristicStep S bl acc b).1 = acc.1 := by simp [heuristicStep, hb]
    have h2 : (heuristicStep S bl acc b).2.2 = acc.2.2 + 1 := by simp [heuristicStep, hb]
    rw [List.foldl_cons]
    obtain ⟨i1, i2⟩ := ih (heuristicStep S bl acc b)
      (fun x hx => hall x (List.mem_cons_of_mem b hx))
    refine ⟨by rw [i1, h1], ?_⟩
    rw [i2, h2]
    simp
    omega

/-- Shared with C3: the heuristic is 0 on any all-on-goal box list. -/
theorem heuristic_zero_of_solved (S : Solver) (boxes : List Point)
    (hall : ∀ b ∈ boxes, S.goalAt (S.toIdx b.row b.col) = true) :
    S.calculateHeuristic boxes = 0 := by
  unfold Solver.calculateHeuristic
  cases hpr : ttProbe (S.boxesZobristKey boxes) with
  | some c => simpa using ttProbe_eq_some hpr
  | none =>
    simp only
    have h22 : (List.foldl (heuristicStep S boxes) (0, 0, 0) boxes).2.2 = boxes.length := by
      simpa using (heuristic_fold_ongoal S boxes boxes (0, 0, 0) hall).2
    simp only [h22, beq_self_eq_true, if_true]

/-- Claim C8: `calculate_heuristic` returns 0 on every box list whose boxes
all sit on goal cells (the empty list included): either the inert
transposition table reports its cached 0, or every box takes the on-goal
branch and the boxes-on-goals count equals the list length. -/
theorem c8_heuristic_zero_at_goal (S : Solver) (boxes : List Point)
    (hall : ∀ b ∈ boxes, S.goalAt (S.toIdx b.row b.col) = true) :
    S.calculateHeuristic boxes = 0 :=
  heuristic_zero_of_solved S boxes hall

/-- Witness for C8 at a solved one-box configuration of the one-push
puzzle from the specification's first scenario. -/
theorem c8_heuristic_zero_at_goal_witness :
    (∀ b ∈ [(⟨1, 3⟩ : Point)],
      (mkSolver (String.mk ['#','#','#','#','#','\n','#','@','$','.','#','\n','#','#','#','#','#'])
        (fun i => (2 ^ (2 * i), 2 ^ (2 * i + 1)))).goalAt
        ((mkSolver (String.mk ['#','#','#','#','#','\n','#','@','$','.','#','\n','#','#','#','#','#'])
          (fun i => (2 ^ (2 * i), 2 ^ (2 * i + 1)))).toIdx b.row b.col) = true) ∧
    (mkSolver (String.mk ['#','#','#','#','#','\n','#','@','$','.','#','\n','#','#','#','#','#'])
      (fun i => (2 ^ (2 * i), 2 ^ (2 * i + 1)))).calculateHeuristic [⟨1, 3⟩] = 0 :=
  ⟨by decide, c8_heuristic_zero_at_goal _ _ (by decide)⟩

/-! ### The empty-input panic (claim C9) -/

/-- Claim C9 (the code bug): on a puzzle text with zero lines the parse
falls back to the default player `(0, 0)` with no boxes, but `solve`'s very
first step — `calculate_zobrist_hash` — indexes the empty Zobrist table at
cell `(0, 0)` with no bounds guard, a Rust panic (`none` in this model).
The program therefore crashes instead of completing with empty output. -/
theorem c9_empty_input_panics (gen : Nat → Nat × Nat) :
    parseStart (String.mk []) = (⟨0, 0⟩, []) ∧
    (mkSolver (String.mk []) gen).zobristTable = [] ∧
    (mkSolver (String.mk []) gen).calculateZobristHash ⟨0, 0⟩ [] = none ∧
    solveP (String.mk []) gen = none :=
  ⟨rfl, rfl, rfl, rfl⟩

/-! ### The search loop: basic facts about `popMin` and `expand` -/

theorem popMin_eq_none {l : List State} : popMin l = none ↔ l = [] := by
  cases l with
  | nil => simp [popMin]
  | cons s rest =>
    simp only [popMin]
    cases popMin rest with
    | none => simp
    | some mr =>
      cases hle : stateLE s mr.1 <;> simp [hle]

theorem popMin_some {l : List State} {c : State} {r : List State}
    (h : popMin l = some (c, r)) :
    c ∈ l ∧ r.length + 1 = l.length ∧ ∀ x ∈ r, x ∈ l := by
  induction l generalizing c r with
  | nil => simp [popMin] at h
  | cons s rest ih =>
    rw [popMin] at h
    cases hm : popMin rest with
    | none =>
      rw [hm] at h
      have hrest : rest = [] := popMin_eq_none.mp hm
      simp only [Option.some_inj, Prod.mk.injEq] at h
      obtain ⟨rfl, rfl⟩ := h
      subst hrest
      simp
    | some mr =>
      obtain ⟨m, rest'⟩ := mr
      rw [hm] at h
      simp only at h
      by_cases hle : stateLE s m = true
      · rw [if_pos hle] at h
        simp only [Option.some_inj, Prod.mk.injEq] at h
        obtain ⟨rfl, rfl⟩ := h
        exact ⟨List.mem_cons_self .., by simp, fun x hx => List.mem_cons_of_mem _ hx⟩
      · rw [if_neg hle] at h
        simp only [Option.some_inj, Prod.mk.injEq] at h
        obtain ⟨rfl, rfl⟩ := h
        obtain ⟨hmem, hlen, hsub⟩ := ih (c := m) (r := rest') (by rw [hm])
        refine ⟨List.mem_cons_of_mem _ hmem, by simp [← hlen], ?_⟩
        intro x hx
        rcases List.mem_cons.mp hx with rfl | hx
        · exact List.mem_cons_self ..
        · exact List.mem_cons_of_mem _ (hsub x hx)

theorem expand_length_le (S : Solver) (cur : State) (visited : Finset Nat) :
    (S.expand cur visited).length ≤ 4 := by
  unfold Solver.expand
  exact le_trans (List.length_filterMap_le _ _) (by simp)

/-- Full case analysis of one generated successor: the walk branch and the
push branch of the expansion loop, with every side condition the source
checked on the way. -/
theorem expand_cases {S : Solver} {cur : State} {visited : Finset Nat} {s : State}
    (h : s ∈ S.expand cur visited) :
    ∃ dir, dir < 4 ∧
      s.player = ⟨cur.player.row + (dirOffset dir).1, cur.player.col + (dirOffset dir).2⟩ ∧
      s.path = cur.path ++ [dir] ∧
      s.hash ∉ visited ∧
      S.isValid s.player.row s.player.col = true ∧
      S.mapAt (S.toIdx s.player.row s.player.col) ≠ 1 ∧
      ((findBoxIdx cur.boxes s.player = none ∧
        s.boxes = cur.boxes ∧
        s.heuristic = S.calculateHeuristic cur.boxes ∧
        s.hash = S.calculateZobristHashIncremental cur.hash cur.player s.player none none) ∨
       (∃ i, findBoxIdx cur.boxes s.player = some i ∧
        S.isValid (s.player.row + (dirOffset dir).1) (s.player.col + (dirOffset dir).2) = true ∧
        S.mapAt (S.toIdx (s.player.row + (dirOffset dir).1)
          (s.player.col + (dirOffset dir).2)) ≠ 1 ∧
        (cur.boxes.any (fun b => b.row == s.player.row + (dirOffset dir).1 &&
          b.col == s.player.col + (dirOffset dir).2)) = false ∧
        S.deadAt (S.toIdx (s.player.row + (dirOffset dir).1)
          (s.player.col + (dirOffset dir).2)) = false ∧
        S.isRoomDeadlock (cur.boxes.set i ⟨s.player.row + (dirOffset dir).1,
          s.player.col + (dirOffset dir).2⟩) = false ∧
        s.boxes = cur.boxes.set i ⟨s.player.row + (dirOffset dir).1,
          s.player.col + (dirOffset dir).2⟩ ∧
        s.heuristic = S.calculateHeuristic s.boxes ∧
        s.hash = S.calculateZobristHashIncremental cur.hash cur.player s.player
          (some (cur.boxes.getD i ⟨0, 0⟩))
          (some ⟨s.player.row + (dirOffset dir).1, s.player.col + (dirOffset dir).2⟩))) := by
  simp only [Solver.expand, List.mem_filterMap, List.mem_range] at h
  obtain ⟨dir, hdir, hf⟩ := h
  refine ⟨dir, hdir, ?_⟩
  split at hf
  · exact absurd hf (by simp)
  next hval =>
  split at hf
  · exact absurd hf (by simp)
  next hwall =>
  have hval' : S.isValid (cur.player.row + (dirOffset dir).1)
      (cur.player.col + (dirOffset dir).2) = true := by
    revert hval
    cases S.isValid (cur.player.row + (dirOffset dir).1) (cur.player.col + (dirOffset dir).2) <;>
      simp
  have hwall' : ¬ S.mapAt (S.toIdx (cur.player.row + (dirOffset dir).1)
      (cur.player.col + (dirOffset dir).2)) = 1 := by
    intro hc
    exact hwall (by simp [hc])
  split at hf
  next i hbox =>
    -- push branch
    split at hf
    · exact absurd hf (by simp)
    next hpval =>
    split at hf
    · exact absurd hf (by simp)
    next hpwall =>
    split at hf
    · exact absurd hf (by simp)
    next hpbox =>
    split at hf
    · exact absurd hf (by simp)
    next hpdead =>
    split at hf
    · exact absurd hf (by simp)
    next hroom =>
    split at hf
    · exact absurd hf (by simp)
    next hhash =>
    obtain rfl := Option.some_inj.mp hf
    refine ⟨rfl, rfl, hhash, hval', hwall', Or.inr ⟨i, hbox, ?_, ?_, ?_, ?_, ?_, rfl, rfl, rfl⟩⟩
    · revert hpval
      cases S.isValid (cur.player.row + (dirOffset dir).1 + (dirOffset dir).1)
        (cur.player.col + (dirOffset dir).2 + (dirOffset dir).2) <;> simp
    · intro hc
      exact hpwall (by simp [hc])
    · revert hpbox
      cases cur.boxes.any fun b => b.row == cur.player.row + (dirOffset dir).1 + (dirOffset dir).1
        && b.col == cur.player.col + (dirOffset dir).2 + (dirOffset dir).2 <;> simp
    · revert hpdead
      cases S.deadAt (S.toIdx (cur.player.row + (dirOffset dir).1 + (dirOffset dir).1)
        (cur.player.col + (dirOffset dir).2 + (dirOffset dir).2)) <;> simp
    · revert hroom
      cases S.isRoomDeadlock (cur.boxes.set i ⟨cur.player.row + (dirOffset dir).1 + (dirOffset dir).1,
        cur.player.col + (dirOffset dir).2 + (dirOffset dir).2⟩) <;> simp
  next hbox =>
    -- walk branch
    split at hf
    · exact absurd hf (by simp)
    next hhash =>
    obtain rfl := Option.some_inj.mp hf
    exact ⟨rfl, rfl, hhash, hval', hwall', Or.inl ⟨hbox, rfl, rfl, rfl⟩⟩

/-! ### Termination of the search loop (claim C2) -/

/-- The Zobrist keys are 64-bit words: every table entry is below `2 ^ 64`.
This is automatic in the Rust source (the keys are `u64`) and is a
hypothesis of the `Nat` embedding. -/
def ztBounded (S : Solver) : Prop :=
  ∀ e ∈ S.zobristTable, e.1 < 2 ^ 64 ∧ e.2 < 2 ^ 64

theorem ztAt_lt {S : Solver} (hz : ztBounded S) (i : Nat) :
    (S.ztAt i).1 < 2 ^ 64 ∧ (S.ztAt i).2 < 2 ^ 64 := by
  by_cases hi : i < S.zobristTable.length
  · rw [Solver.ztAt, getD_eq_get _ _ _ hi]
    exact hz _ (List.get_mem ..)
  · rw [Solver.ztAt, getD_of_ge_length _ _ _ (by omega)]
    norm_num

theorem incr_lt {S : Solver} (hz : ztBounded S) {old : Nat} (ho : old < 2 ^ 64)
    (p p' : Point) (ob nb : Option Point) :
    S.calculateZobristHashIncremental old p p' ob nb < 2 ^ 64 := by
  unfold Solver.calculateZobristHashIncremental
  have X := fun i => ztAt_lt hz i
  have h2 : old ^^^ (S.ztAt (S.toIdx p.row p.col)).1
      ^^^ (S.ztAt (S.toIdx p'.row p'.col)).1 < 2 ^ 64 :=
    Nat.xor_lt_two_pow (Nat.xor_lt_two_pow ho (X _).1) (X _).1
  cases ob with
  | none =>
    cases nb with
    | none => exact h2
    | some b => exact Nat.xor_lt_two_pow h2 (X _).2
  | some b =>
    cases nb with
    | none => exact Nat.xor_lt_two_pow h2 (X _).2
    | some b' => exact Nat.xor_lt_two_pow (Nat.xor_lt_two_pow h2 (X _).2) (X _).2

theorem expand_hash_lt {S : Solver} {cur : State} {visited : Finset Nat}
    (hz : ztBounded S) (hc : cur.hash < 2 ^ 64) :
    ∀ s ∈ S.expand cur visited, s.hash < 2 ^ 64 := by
  intro s hs
  obtain ⟨dir, -, -, -, -, -, -, hcase⟩ := expand_cases hs
  rcases hcase with ⟨-, -, -, hhash⟩ | ⟨i, -, -, -, -, -, -, -, -, hhash⟩ <;>
    · rw [hhash]
      exact incr_lt hz hc ..

/-- The termination measure of the search loop: heap size plus four times
the number of 64-bit hash values not yet in the visited set. -/
def searchMeasure (heap : List State) (visited : Finset Nat) : Nat :=
  heap.length + 4 * (2 ^ 64 - visited.card)

/-- The loop yields a result whenever the fuel exceeds the measure: every
iteration either pops a duplicate (heap shrinks) or expands a new state
(the visited set of 64-bit hashes grows, which can happen at most `2 ^ 64`
times), so the measure strictly decreases. -/
theorem runLoop_isSome {S : Solver} (hz : ztBounded S) :
    ∀ (fuel : Nat) (heap : List State) (visited : Finset Nat) (trace : List State),
      (∀ s ∈ heap, s.hash < 2 ^ 64) → visited ⊆ Finset.range (2 ^ 64) →
      searchMeasure heap visited < fuel →
      (S.runLoop fuel heap visited trace).isSome := by
  intro fuel
  induction fuel with
  | zero =>
    intro heap visited trace _ _ hm
    exact absurd hm (by omega)
  | succ fuel ih =>
    intro heap visited trace hh hv hm
    rw [Solver.runLoop]
    cases hp : popMin heap with
    | none => simp
    | some cr =>
      obtain ⟨cur, rest⟩ := cr
      obtain ⟨hcmem, hlen, hsub⟩ := popMin_some hp
      simp only
      by_cases hsolved : S.isSolvedBoxes cur.boxes = true
      · rw [if_pos hsolved]
        simp
      · rw [if_neg hsolved]
        by_cases hvis : cur.hash ∈ visited
        · rw [if_pos hvis]
          apply ih rest visited trace (fun s hs => hh s (hsub s hs)) hv
          unfold searchMeasure at hm ⊢
          omega
        · rw [if_neg hvis]
          have hclt : cur.hash < 2 ^ 64 := hh cur hcmem
          have hcard : (insert cur.hash visited).card = visited.card + 1 :=
            Finset.card_insert_of_not_mem hvis
          have hsubset : insert cur.hash visited ⊆ Finset.range (2 ^ 64) := by
            intro x hx
            rcases Finset.mem_insert.mp hx with rfl | hx
            · exact Finset.mem_range.mpr hclt
            · exact hv hx
          have hcardle : (insert cur.hash visited).card ≤ 2 ^ 64 := by
            calc (insert cur.hash visited).card ≤ (Finset.range (2 ^ 64)).card :=
                Finset.card_le_card hsubset
              _ = 2 ^ 64 := Finset.card_range _
          apply ih
          · intro s hs
            rcases List.mem_append.mp hs with hs | hs
            · exact hh s (hsub s hs)
            · exact expand_hash_lt hz hclt s hs
          · exact hsubset
          · have hexp := expand_length_le S cur (insert cur.hash visited)
            unfold searchMeasure at hm ⊢
            rw [List.length_append, hcard]
            omega

/-- Running the loop with more fuel cannot change an already-delivered
result. -/
theorem runLoop_mono {S : Solver} :
    ∀ (fuel fuel' : Nat) (heap : List State) (visited : Finset Nat)
      (trace : List State) (out : List Nat × List State),
      S.runLoop fuel heap visited trace = some out → fuel ≤ fuel' →
      S.runLoop fuel' heap visited trace = some out := by
  intro fuel
  induction fuel with
  | zero =>
    intro fuel' heap visited trace out h
    simp [Solver.runLoop] at h
  | succ fuel ih =>
    intro fuel' heap visited trace out h hle
    obtain ⟨f', rfl⟩ : ∃ f', fuel' = f' + 1 := ⟨fuel' - 1, by omega⟩
    rw [Solver.runLoop] at h ⊢
    cases hp : popMin heap with
    | none =>
      rw [hp] at h
      exact h
    | some cr =>
      obtain ⟨cur, rest⟩ := cr
      rw [hp] at h
      simp only at h ⊢
      by_cases hsolved : S.isSolvedBoxes cur.boxes = true
      · rw [if_pos hsolved] at h ⊢
        exact h
      · rw [if_neg hsolved] at h ⊢
        by_cases hvis : cur.hash ∈ visited
        · rw [if_pos hvis] at h ⊢
          exact ih f' rest visited trace out h (by omega)
        · rw [if_neg hvis] at h ⊢
          exact ih f' _ _ _ out h (by omega)

/-- The generic loop invariant: a state property preserved by expansion
holds for every traced (pushed) state, and the returned path belongs to a
popped state that satisfied it and was solved — unless the heap emptied and
the empty path was returned. -/
theorem runLoop_invariant {S : Solver} (P : State → Prop)
    (hstep : ∀ (cur : State) (v : Finset Nat), P cur → ∀ s ∈ S.expand cur v, P s) :
    ∀ (fuel : Nat) (heap : List State) (visited : Finset Nat) (trace : List State)
      (out : List Nat × List State),
      S.runLoop fuel heap visited trace = some out →
      (∀ s ∈ heap, P s) → (∀ s ∈ trace, P s) →
      (∀ s ∈ out.2, P s) ∧
      (out.1 = [] ∨ ∃ s, P s ∧ S.isSolvedBoxes s.boxes = true ∧ out.1 = s.path) := by
  intro fuel
  induction fuel with
  | zero =>
    intro heap visited trace out h
    simp [Solver.runLoop] at h
  | succ fuel ih =>
    intro heap visited trace out h hheap htrace
    rw [Solver.runLoop] at h
    cases hp : popMin heap with
    | none =>
      rw [hp] at h
      obtain rfl := Option.some_inj.mp h
      exact ⟨htrace, Or.inl rfl⟩
    | some cr =>
      obtain ⟨cur, rest⟩ := cr
      obtain ⟨hcmem, -, hsub⟩ := popMin_some hp
      rw [hp] at h
      simp only at h
      by_cases hsolved : S.isSolvedBoxes cur.boxes = true
      · rw [if_pos hsolved] at h
        obtain rfl := Option.some_inj.mp h
        exact ⟨htrace, Or.inr ⟨cur, hheap cur hcmem, hsolved, rfl⟩⟩
      · rw [if_neg hsolved] at h
        by_cases hvis : cur.hash ∈ visited
        · rw [if_pos hvis] at h
          exact ih rest visited trace out h (fun s hs => hheap s (hsub s hs)) htrace
        · rw [if_neg hvis] at h
          have hsucc : ∀ s ∈ S.expand cur (insert cur.hash visited), P s :=
            hstep cur _ (hheap cur hcmem)
          apply ih _ _ _ out h
          · intro s hs
            rcases List.mem_append.mp hs with hs | hs
            · exact hheap s (hsub s hs)
            · exact hsucc s hs
          · intro s hs
            rcases List.mem_append.mp hs with hs | hs
            · exact htrace s hs
            · exact hsucc s hs

/-- Claim C2: the search loop always terminates.  Whenever the start-state
hash computation succeeds (the one place the source can panic, see C9), the
whole of `solve` delivers a result string — the loop never runs forever,
because the visited set of 64-bit hashes is finite. -/
theorem c2_solve_terminates (S : Solver) (player : Point) (boxes : List Point)
    (hz : ztBounded S) (hh : (S.calculateZobristHash player boxes).isSome) :
    (S.solve player boxes).isSome := by
  obtain ⟨h0, hh0⟩ := Option.isSome_iff_exists.mp hh
  have hb : h0 < 2 ^ 64 := by
    obtain ⟨-, -, hval⟩ := calcZobristHash_eq_some_iff.mp hh0
    subst hval
    unfold zobristOf
    have : ∀ (l : List Point) (x : Nat), x < 2 ^ 64 →
        l.foldl (fun h b => h ^^^ (S.ztAt (S.toIdx b.row b.col)).2) x < 2 ^ 64 := by
      intro l
      induction l with
      | nil => intro x hx; exact hx
      | cons b bs ihl =>
        intro x hx
        exact ihl _ (Nat.xor_lt_two_pow hx (ztAt_lt hz _).2)
    exact this boxes _ (ztAt_lt hz _).1
  have hrun := runLoop_isSome (S := S) hz solveFuel
    [initState S player boxes h0] ∅ [initState S player boxes h0]
    (by intro s hs; simp at hs; subst hs; exact hb)
    (by simp)
    (by unfold searchMeasure solveFuel; simp)
  unfold Solver.solve Solver.solveTrace
  rw [hh0]
  simp only [Option.some_bind]
  obtain ⟨out, hout⟩ := Option.isSome_iff_exists.mp hrun
  rw [hout]
  simp

/-! ### Concrete instances used by witnesses and counterexamples -/

/-- A concrete admissible draw of the Zobrist table: cell `i` gets player
key `2 ^ (2 i)` and box key `2 ^ (2 i + 1)` (distinct single bits, so
distinct configurations of the small witness boards hash distinctly). -/
def genPow : Nat → Nat × Nat := fun i => (2 ^ (2 * i), 2 ^ (2 * i + 1))

/-- The specification's first concrete scenario: one push solves it. -/
def puzzle1 : String := "#####\n#@$.#\n#####"

/-- A one-cell puzzle: just the player, no boxes, no goals. -/
def puzzleTrivial : String := "@"

/-- One box, two goals: box and goal counts disagree, yet pushing the box
onto either goal satisfies `is_solved_boxes`. -/
def puzzleFewBoxes : String := "######\n#@$..#\n######"

/-- One box, no goals: more boxes than goals. -/
def puzzleMoreBoxes : String := "####\n#@$#\n####"

/-- The box starts on a statically dead square while the player can still
walk: walk successors inherit the dead-square box. -/
def puzzleDeadBox : String := "#####\n#@ .#\n#$###"

/-- Two boxes, one goal: the greedy heuristic leaves the unmatched off-goal
box with no unused goal and returns 0 although the state is unsolved. -/
def puzzleH0 : String := "#####\n#*  #\n# $ #\n# @ #\n#####"

/-- Witness for C2 on the one-push puzzle. -/
theorem c2_solve_terminates_witness :
    ztBounded (mkSolver puzzle1 genPow) ∧
    ((mkSolver puzzle1 genPow).calculateZobristHash ⟨1, 1⟩ [⟨1, 2⟩]).isSome ∧
    ((mkSolver puzzle1 genPow).solve ⟨1, 1⟩ [⟨1, 2⟩]).isSome :=
  ⟨by unfold ztBounded; decide, by decide,
    c2_solve_terminates _ _ _ (by unfold ztBounded; decide) (by decide)⟩

/-! ### Replay of recorded paths (claims C10 and C1) -/

/-- The replay invariant of a search node: replaying its recorded path from
the start configuration reproduces exactly its player and boxes, and the
path holds direction codes `0..3`. -/
def replayState (p0 : Point) (b0 : List Point) (s : State) : Prop :=
  replayCodes p0 b0 s.path = (s.player, s.boxes) ∧ ∀ d ∈ s.path, d < 4

theorem applyMove_eq (p : Point) (b : List Point) (dir : Nat) :
    applyMove (p, b) dir =
      match findBoxIdx b ⟨p.row + (dirOffset dir).1, p.col + (dirOffset dir).2⟩ with
      | some i => (⟨p.row + (dirOffset dir).1, p.col + (dirOffset dir).2⟩,
          b.set i ⟨p.row + (dirOffset dir).1 + (dirOffset dir).1,
            p.col + (dirOffset dir).2 + (dirOffset dir).2⟩)
      | none => (⟨p.row + (dirOffset dir).1, p.col + (dirOffset dir).2⟩, b) := rfl

theorem replay_preserved (S : Solver) (p0 : Point) (b0 : List Point) :
    ∀ (cur : State) (v : Finset Nat), replayState p0 b0 cur →
      ∀ s ∈ S.expand cur v, replayState p0 b0 s := by
  rintro cur v ⟨hrep, hcodes⟩ s hs
  obtain ⟨dir, hdir, hplayer, hpath, -, -, -, hcase⟩ := expand_cases hs
  constructor
  · rw [hpath]
    unfold replayCodes at hrep ⊢
    rw [List.foldl_append, hrep, List.foldl_cons, List.foldl_nil, applyMove_eq]
    rcases hcase with ⟨hnone, hboxes, -, -⟩ | ⟨i, hsome, -, -, -, -, -, hboxes, -, -⟩
    · simp only [hplayer] at hnone
      rw [hnone, hplayer, hboxes]
    · simp only [hplayer] at hsome hboxes
      rw [hsome, hplayer, hboxes]
  · intro d hd
    rw [hpath] at hd
    rcases List.mem_append.mp hd with hd | hd
    · exact hcodes d hd
    · rw [List.mem_singleton.mp hd]
      exact hdir

/-- Claim C10: every state ever pushed onto the open heap (the start state
and every generated successor in the trace) carries a path whose replay
from the initial configuration reproduces exactly its player position and
box list. -/
theorem c10_pushed_states_replay (puzzle : String) (gen : Nat → Nat × Nat)
    (out : List Nat × List State) (h : solveTraceP puzzle gen = some out) :
    ∀ s ∈ out.2,
      replayCodes (parseStart puzzle).1 (parseStart puzzle).2 s.path
        = (s.player, s.boxes) := by
  unfold solveTraceP Solver.solveTrace at h
  cases hh0 : (mkSolver puzzle gen).calculateZobristHash (parseStart puzzle).1
      (parseStart puzzle).2 with
  | none => rw [hh0] at h; simp at h
  | some h0 =>
    rw [hh0] at h
    simp only [Option.some_bind] at h
    have hinit : replayState (parseStart puzzle).1 (parseStart puzzle).2
        (initState (mkSolver puzzle gen) (parseStart puzzle).1 (parseStart puzzle).2 h0) :=
      ⟨rfl, by simp [initState]⟩
    have := runLoop_invariant (S := mkSolver puzzle gen)
      (replayState (parseStart puzzle).1 (parseStart puzzle).2)
      (replay_preserved _ _ _) solveFuel _ _ _ out h
      (by intro s hs; simp at hs; subst hs; exact hinit)
      (by intro s hs; simp at hs; subst hs; exact hinit)
    exact fun s hs => (this.1 s hs).1

/-- Witness for C10 on the trivial one-cell puzzle (start state is solved
immediately; the trace is exactly the pushed start state). -/
theorem c10_pushed_states_replay_witness :
    solveTraceP puzzleTrivial genPow = some ([], [⟨[], ⟨0, 0⟩, [], 0, 1⟩]) ∧
    replayCodes ⟨0, 0⟩ [] [] = (⟨0, 0⟩, []) :=
  ⟨by decide,
    c10_pushed_states_replay puzzleTrivial genPow ([], [⟨[], ⟨0, 0⟩, [], 0, 1⟩])
      (by decide) ⟨[], ⟨0, 0⟩, [], 0, 1⟩ (by decide)⟩

theorem charToDir_dirChar {d : Nat} (h : d < 4) : charToDir (dirChar d) = d := by
  interval_cases d <;> decide

theorem map_charToDir_dirChar {l : List Nat} (h : ∀ d ∈ l, d < 4) :
    (l.map dirChar).map charToDir = l := by
  induction l with
  | nil => simp
  | cons d ds ih =>
    simp only [List.map_cons, List.cons.injEq]
    exact ⟨charToDir_dirChar (h d (List.mem_cons_self ..)),
      ih (fun x hx => h x (List.mem_cons_of_mem _ hx))⟩

/-- Claim C1: whenever the engine returns a (non-empty) move string,
replaying it character by character from the parsed initial configuration
ends with every box on a goal cell. -/
theorem c1_solution_replay (puzzle : String) (gen : Nat → Nat × Nat) (r : String)
    (hr : solveP puzzle gen = some r) (hne : r ≠ "") :
    (mkSolver puzzle gen).isSolvedBoxes
      (replayString (parseStart puzzle).1 (parseStart puzzle).2 r).2 = true := by
  unfold solveP at hr
  cases hout : solveTraceP puzzle gen with
  | none => rw [hout] at hr; simp at hr
  | some out =>
    rw [hout] at hr
    simp only [Option.map_some', Option.some_inj] at hr
    unfold solveTraceP Solver.solveTrace at hout
    cases hh0 : (mkSolver puzzle gen).calculateZobristHash (parseStart puzzle).1
        (parseStart puzzle).2 with
    | none => rw [hh0] at hout; simp at hout
    | some h0 =>
      rw [hh0] at hout
      simp only [Option.some_bind] at hout
      have hinit : replayState (parseStart puzzle).1 (parseStart puzzle).2
          (initState (mkSolver puzzle gen) (parseStart puzzle).1 (parseStart puzzle).2 h0) :=
        ⟨rfl, by simp [initState]⟩
      have hres := runLoop_invariant (S := mkSolver puzzle gen)
        (replayState (parseStart puzzle).1 (parseStart puzzle).2)
        (replay_preserved _ _ _) solveFuel _ _ _ out hout
        (by intro s hs; simp at hs; subst hs; exact hinit)
        (by intro s hs; simp at hs; subst hs; exact hinit)
      rcases hres.2 with hempty | ⟨s, ⟨hrep, hcodes⟩, hsolved, hpath⟩
      · rw [← hr, hempty] at hne
        exact absurd (by decide) hne
      · rw [← hr, hpath]
        unfold replayString codesToString
        rw [show (String.mk (s.path.map dirChar)).data = s.path.map dirChar from rfl,
          map_charToDir_dirChar hcodes, hrep]
        exact hsolved

/-- Witness for C1 on the one-push puzzle: the engine answers the move
string of one step right, whose replay pushes the box onto the goal. -/
theorem c1_solution_replay_witness :
    solveP puzzle1 genPow = some "r" ∧ ("r" : String) ≠ "" ∧
    (mkSolver puzzle1 genPow).isSolvedBoxes
      (replayString (parseStart puzzle1).1 (parseStart puzzle1).2 "r").2 = true :=
  ⟨by decide, by decide, c1_solution_replay puzzle1 genPow "r" (by decide) (by decide)⟩

/-- Witness for C7 on the one-push puzzle: the start hash, one walk and the
push onto the goal. -/
theorem c7_hash_homomorphism_witness :
    (mkSolver puzzle1 genPow).calculateZobristHash ⟨1, 1⟩ [⟨1, 2⟩] = some 36864 ∧
    ((mkSolver puzzle1 genPow).calculateZobristHash ⟨1, 2⟩ [⟨1, 2⟩] =
      some ((mkSolver puzzle1 genPow).calculateZobristHashIncremental 36864
        ⟨1, 1⟩ ⟨1, 2⟩ none none) ∧
    (mkSolver puzzle1 genPow).calculateZobristHash ⟨1, 2⟩ ([(⟨1, 2⟩ : Point)].set 0 ⟨1, 3⟩) =
      some ((mkSolver puzzle1 genPow).calculateZobristHashIncremental 36864
        ⟨1, 1⟩ ⟨1, 2⟩ (some ([(⟨1, 2⟩ : Point)].get ⟨0, by decide⟩)) (some ⟨1, 3⟩))) :=
  ⟨by decide,
    c7_hash_homomorphism (mkSolver puzzle1 genPow) ⟨1, 1⟩ ⟨1, 2⟩ [⟨1, 2⟩] 36864 0 ⟨1, 3⟩
      (by decide) (by decide) (by decide) (by decide)⟩

/-! ### Boxes of generated successors (claim C5) -/

/-- Counterexample to C5 as stated: on `puzzleDeadBox` the box starts on a
statically dead square, and the walk successors generated by the search
(the trace minus the start state) keep that box on the dead square. -/
theorem c5_counterexample :
    (solveTraceP puzzleDeadBox genPow).map
      (fun out => (out.2.drop 1).any
        (fun s => s.boxes.any
          (fun b => (mkSolver puzzleDeadBox genPow).deadAt
            ((mkSolver puzzleDeadBox genPow).toIdx b.row b.col)))) = some true := by
  decide

/-- The amended successor-box invariant. -/
def boxesOK (S : Solver) (s : State) : Prop :=
  ∀ b ∈ s.boxes, S.isValid b.row b.col = true ∧
    S.mapAt (S.toIdx b.row b.col) ≠ 1 ∧
    S.deadAt (S.toIdx b.row b.col) = false

theorem boxesOK_preserved (S : Solver) :
    ∀ (cur : State) (v : Finset Nat), boxesOK S cur → ∀ s ∈ S.expand cur v, boxesOK S s := by
  intro cur v hok s hs
  obtain ⟨dir, -, hplayer, -, -, -, -, hcase⟩ := expand_cases hs
  rcases hcase with ⟨-, hboxes, -, -⟩ | ⟨i, -, hpval, hpwall, -, hpdead, -, hboxes, -, -⟩
  · intro b hb
    rw [hboxes] at hb
    exact hok b hb
  · intro b hb
    rw [hboxes] at hb
    rcases List.mem_or_eq_of_mem_set hb with hmem | rfl
    · exact hok b hmem
    · exact ⟨hpval, hpwall, hpdead⟩

/-- Claim C5, amended: *provided every initial box sits on an in-bounds,
non-wall, non-dead cell*, every state ever pushed onto the heap keeps all
its boxes off walls and off dead squares.  (As stated the claim fails: a
walk successor inherits an initial box that already sits on a dead square,
see `c5_counterexample`.  The box moved by a push always lands on a
non-wall, non-dead cell — that is the push branch of
`boxesOK_preserved`.) -/
theorem c5_successor_boxes (puzzle : String) (gen : Nat → Nat × Nat)
    (out : List Nat × List State) (h : solveTraceP puzzle gen = some out)
    (hinit : ∀ b ∈ (parseStart puzzle).2,
      (mkSolver puzzle gen).isValid b.row b.col = true ∧
      (mkSolver puzzle gen).mapAt ((mkSolver puzzle gen).toIdx b.row b.col) ≠ 1 ∧
      (mkSolver puzzle gen).deadAt ((mkSolver puzzle gen).toIdx b.row b.col) = false) :
    ∀ s ∈ out.2, ∀ b ∈ s.boxes,
      (mkSolver puzzle gen).mapAt ((mkSolver puzzle gen).toIdx b.row b.col) ≠ 1 ∧
      (mkSolver puzzle gen).deadAt ((mkSolver puzzle gen).toIdx b.row b.col) = false := by
  unfold solveTraceP Solver.solveTrace at h
  cases hh0 : (mkSolver puzzle gen).calculateZobristHash (parseStart puzzle).1
      (parseStart puzzle).2 with
  | none => rw [hh0] at h; simp at h
  | some h0 =>
    rw [hh0] at h
    simp only [Option.some_bind] at h
    have hinit' : boxesOK (mkSolver puzzle gen)
        (initState (mkSolver puzzle gen) (parseStart puzzle).1 (parseStart puzzle).2 h0) :=
      hinit
    have hres := runLoop_invariant (S := mkSolver puzzle gen)
      (boxesOK (mkSolver puzzle gen)) (boxesOK_preserved _) solveFuel _ _ _ out h
      (by intro s hs; simp at hs; subst hs; exact hinit')
      (by intro s hs; simp at hs; subst hs; exact hinit')
    intro s hs b hb
    exact ⟨((hres.1 s hs) b hb).2.1, ((hres.1 s hs) b hb).2.2⟩

/-- Witness for the amended C5 on the one-push puzzle, instantiated at the
pushed successor's box on the goal cell. -/
theorem c5_successor_boxes_witness :
    solveTraceP puzzle1 genPow =
      some ([3], [⟨[⟨1, 2⟩], ⟨1, 1⟩, [], 1, 36864⟩, ⟨[⟨1, 3⟩], ⟨1, 2⟩, [3], 0, 147456⟩]) ∧
    (∀ b ∈ (parseStart puzzle1).2,
      (mkSolver puzzle1 genPow).isValid b.row b.col = true ∧
      (mkSolver puzzle1 genPow).mapAt ((mkSolver puzzle1 genPow).toIdx b.row b.col) ≠ 1 ∧
      (mkSolver puzzle1 genPow).deadAt ((mkSolver puzzle1 genPow).toIdx b.row b.col) = false) ∧
    ((mkSolver puzzle1 genPow).mapAt ((mkSolver puzzle1 genPow).toIdx 1 3) ≠ 1 ∧
      (mkSolver puzzle1 genPow).deadAt ((mkSolver puzzle1 genPow).toIdx 1 3) = false) :=
  ⟨by decide, by decide,
    c5_successor_boxes puzzle1 genPow
      ([3], [⟨[⟨1, 2⟩], ⟨1, 1⟩, [], 1, 36864⟩, ⟨[⟨1, 3⟩], ⟨1, 2⟩, [3], 0, 147456⟩])
      (by decide) (by decide)
      ⟨[⟨1, 3⟩], ⟨1, 2⟩, [3], 0, 147456⟩ (by decide) ⟨1, 3⟩ (by decide)⟩

/-! ### Heuristic zero versus solved (claim C3) -/

theorem ttProbe_of_ne_zero {k : Nat} (h : k ≠ 0) : ttProbe k = none := by
  unfold ttProbe ttEntry
  have hk : ((0 : Nat) == k) = false := by
    simp [beq_iff_eq]
    omega
  simp [hk]

theorem manhattan_nonneg (b g : Point) : 0 ≤ manhattan b g := by
  unfold manhattan
  positivity

theorem snd_mem_of_mem_enum {α : Type} {l : List α} {x : Nat × α} (h : x ∈ l.enum) :
    x.2 ∈ l := by
  have hx := List.mem_enum_iff_getElem?.mp h
  have hlt : x.1 < l.length := by
    by_contra hc
    rw [List.getElem?_eq_none (by omega)] at hx
    exact absurd hx (by simp)
  rw [List.getElem?_eq_getElem hlt] at hx
  rw [show x.2 = l[x.1] from (Option.some_inj.mp hx).symm]
  exact List.getElem_mem ..

theorem and_shift_beq (m i : Nat) : (m &&& (1 <<< i) == 0) = !m.testBit i := by
  rw [Nat.one_shiftLeft, Nat.and_two_pow]
  cases h : m.testBit i <;> simp [Nat.pos_iff_ne_zero, pow_ne_zero]

/-- The running state of the goal scan stays within `[1, i32::MAX]` and
records a genuine goal distance whenever it holds a candidate. -/
theorem bestGoal_spec (S : Solver) (mask : Nat) (b : Point) :
    ((bestGoal S mask b).2 = none → (bestGoal S mask b).1 = 2 ^ 31 - 1) ∧
    ((bestGoal S mask b).2 ≠ none → ∃ g ∈ S.goals, (bestGoal S mask b).1 = manhattan b g) := by
  unfold bestGoal
  have H : ∀ (l : List (Nat × Point)) (st : Int × Option Nat),
      (∀ x ∈ l, x.2 ∈ S.goals) →
      ((st.2 = none → st.1 = 2 ^ 31 - 1) ∧
        (st.2 ≠ none → ∃ g ∈ S.goals, st.1 = manhattan b g)) →
      (((l.foldl (fun st g => if mask &&& (1 <<< g.1) == 0 then
          (if manhattan b g.2 < st.1 then (manhattan b g.2, some g.1) else st) else st) st).2
          = none →
        (l.foldl (fun st g => if mask &&& (1 <<< g.1) == 0 then
          (if manhattan b g.2 < st.1 then (manhattan b g.2, some g.1) else st) else st) st).1
          = 2 ^ 31 - 1) ∧
       ((l.foldl (fun st g => if mask &&& (1 <<< g.1) == 0 then
          (if manhattan b g.2 < st.1 then (manhattan b g.2, some g.1) else st) else st) st).2
          ≠ none →
        ∃ g ∈ S.goals,
          (l.foldl (fun st g => if mask &&& (1 <<< g.1) == 0 then
            (if manhattan b g.2 < st.1 then (manhattan b g.2, some g.1) else st) else st) st).1
            = manhattan b g)) := by
    intro l
    induction l with
    | nil => intro st _ hst; exact hst
    | cons x xs ih =>
      intro st hmem hst
      rw [List.foldl_cons]
      apply ih _ (fun y hy => hmem y (List.mem_cons_of_mem _ hy))
      by_cases h1 : (mask &&& (1 <<< x.1) == 0) = true
      · rw [if_pos h1]
        by_cases h2 : manhattan b x.2 < st.1
        · rw [if_pos h2]
          exact ⟨by simp, fun _ => ⟨x.2, hmem x (List.mem_cons_self ..), rfl⟩⟩
        · rw [if_neg h2]
          exact hst
      · rw [if_neg h1]
        exact hst
  exact H S.goals.enum (2 ^ 31 - 1, none) (fun x hx => snd_mem_of_mem_enum hx)
    ⟨fun _ => rfl, fun hn => absurd rfl hn⟩

theorem bestGoal_some_of_unused (S : Solver) (mask : Nat) (b : Point)
    (hex : ∃ i, i < S.goals.length ∧ mask.testBit i = false)
    (hdist : ∀ g ∈ S.goals, manhattan b g < 2 ^ 31 - 1) :
    (bestGoal S mask b).2 ≠ none := by
  classical
  obtain ⟨i, hilt, hibit⟩ := hex
  unfold bestGoal
  set f := fun (st : Int × Option Nat) (g : Nat × Point) =>
    if mask &&& (1 <<< g.1) == 0 then
      (if manhattan b g.2 < st.1 then (manhattan b g.2, some g.1) else st) else st with hf
  have fsome : ∀ (st : Int × Option Nat) (x : Nat × Point), st.2 ≠ none → (f st x).2 ≠ none := by
    intro st x hst
    rw [hf]
    by_cases h1 : (mask &&& (1 <<< x.1) == 0) = true
    · by_cases h2 : manhattan b x.2 < st.1
      · simp [h1, h2]
      · simp [h1, h2, hst]
    · simp [h1, hst]
  have fold_some : ∀ (l : List (Nat × Point)) (st : Int × Option Nat),
      st.2 ≠ none → (l.foldl f st).2 ≠ none := by
    intro l
    induction l with
    | nil => intro st hst; exact hst
    | cons x xs ih => intro st hst; exact ih _ (fsome st x hst)
  have fQ : ∀ (st : Int × Option Nat) (x : Nat × Point), x.2 ∈ S.goals →
      (st.1 ≤ 2 ^ 31 - 1 ∧ (st.2 = none → st.1 = 2 ^ 31 - 1)) →
      ((f st x).1 ≤ 2 ^ 31 - 1 ∧ ((f st x).2 = none → (f st x).1 = 2 ^ 31 - 1)) := by
    intro st x hx hst
    simp only [hf]
    by_cases h1 : (mask &&& (1 <<< x.1) == 0) = true
    · rw [if_pos h1]
      by_cases h2 : manhattan b x.2 < st.1
      · rw [if_pos h2]
        exact ⟨le_of_lt (lt_of_lt_of_le h2 hst.1), by simp⟩
      · rw [if_neg h2]
        exact hst
    · rw [if_neg h1]
      exact hst
  have key : ∀ (l : List (Nat × Point)) (st : Int × Option Nat),
      (∀ x ∈ l, x.2 ∈ S.goals) →
      (st.1 ≤ 2 ^ 31 - 1 ∧ (st.2 = none → st.1 = 2 ^ 31 - 1)) →
      (∃ x ∈ l, x.1 = i) →
      (l.foldl f st).2 ≠ none := by
    intro l
    induction l with
    | nil =>
      rintro st _ _ ⟨x, hx, -⟩
      simp at hx
    | cons x xs ih =>
      rintro st hmem hst ⟨y, hy, hyi⟩
      rw [List.foldl_cons]
      rcases List.mem_cons.mp hy with rfl | hy
      · -- the unused goal index is processed right now
        apply fold_some
        have hcond : (mask &&& (1 <<< y.1) == 0) = true := by
          rw [and_shift_beq, hyi, hibit]
          rfl
        simp only [hf, hcond, if_true]
        by_cases h2 : manhattan b y.2 < st.1
        · rw [if_pos h2]
          simp
        · rw [if_neg h2]
          intro hnone
          have := hst.2 hnone
          have hylt := hdist y.2 (hmem y (List.mem_cons_self ..))
          omega
      · exact ih _ (fun z hz => hmem z (List.mem_cons_of_mem _ hz))
          (fQ st x (hmem x (List.mem_cons_self ..)) hst) ⟨y, hy, hyi⟩
  apply key S.goals.enum (2 ^ 31 - 1, none) (fun x hx => snd_mem_of_mem_enum hx)
    ⟨le_refl _, fun _ => rfl⟩
  refine ⟨(i, S.goals.get ⟨i, hilt⟩), ?_, rfl⟩
  apply List.mem_enum_iff_getElem?.mpr
  simp [List.getElem?_eq_getElem hilt]

theorem bestGoal_pos (S : Solver) (mask : Nat) (b : Point)
    (hgg : ∀ g ∈ S.goals, S.goalAt (S.toIdx g.row g.col) = true)
    (hoff : S.goalAt (S.toIdx b.row b.col) = false)
    (hsome : (bestGoal S mask b).2 ≠ none) :
    1 ≤ (bestGoal S mask b).1 := by
  obtain ⟨g, hg, heq⟩ := (bestGoal_spec S mask b).2 hsome
  rw [heq]
  by_contra hlt
  push_neg at hlt
  have h0 : manhattan b g = 0 := le_antisymm (by omega) (manhattan_nonneg b g)
  unfold manhattan at h0
  have hrow : b.row = g.row := by
    have : (b.row - g.row).natAbs = 0 := by omega
    have := Int.natAbs_eq_zero.mp this
    omega
  have hcol : b.col = g.col := by
    have : (b.col - g.col).natAbs = 0 := by omega
    have := Int.natAbs_eq_zero.mp this
    omega
  rw [show S.toIdx b.row b.col = S.toIdx g.row g.col by rw [hrow, hcol], hgg g hg] at hoff
  exact absurd hoff (by simp)

/-- Number of used goal indices recorded in the mask. -/
def maskCard (S : Solver) (mask : Nat) : Nat :=
  ((Finset.range S.goals.length).filter (fun i => mask.testBit i)).card

theorem maskCard_zero (S : Solver) : maskCard S 0 = 0 := by
  simp [maskCard, Nat.zero_testBit]

theorem maskCard_or_le (S : Solver) (mask i : Nat) :
    maskCard S (mask ||| (1 <<< i)) ≤ maskCard S mask + 1 := by
  classical
  unfold maskCard
  have hsub : (Finset.range S.goals.length).filter (fun j => (mask ||| (1 <<< i)).testBit j)
      ⊆ insert i ((Finset.range S.goals.length).filter (fun j => mask.testBit j)) := by
    intro j hj
    obtain ⟨hjr, hjb⟩ := Finset.mem_filter.mp hj
    by_cases hji : j = i
    · exact hji ▸ Finset.mem_insert_self ..
    · apply Finset.mem_insert_of_mem
      apply Finset.mem_filter.mpr
      refine ⟨hjr, ?_⟩
      rw [Nat.testBit_or, Nat.one_shiftLeft, Nat.testBit_two_pow_of_ne (Ne.symm hji)] at hjb
      simpa using hjb
  calc ((Finset.range S.goals.length).filter (fun j => (mask ||| (1 <<< i)).testBit j)).card
      ≤ (insert i ((Finset.range S.goals.length).filter (fun j => mask.testBit j))).card :=
        Finset.card_le_card hsub
    _ ≤ _ := Finset.card_insert_le ..

theorem maskCard_lt_exists (S : Solver) (mask : Nat)
    (h : maskCard S mask < S.goals.length) :
    ∃ i, i < S.goals.length ∧ mask.testBit i = false := by
  classical
  by_contra hc
  push_neg at hc
  have hall : ∀ i ∈ Finset.range S.goals.length, mask.testBit i := by
    intro i hi
    have := hc i (Finset.mem_range.mp hi)
    revert this
    cases mask.testBit i <;> simp
  have : (Finset.range S.goals.length).filter (fun i => mask.testBit i)
      = Finset.range S.goals.length := Finset.filter_true_of_mem hall
  unfold maskCard at h
  rw [this, Finset.card_range] at h
  omega

theorem step_total_ongoal (S : Solver) (bl : List Point) (acc : Int × Nat × Nat) (b : Point)
    (hb : S.goalAt (S.toIdx b.row b.col) = true) :
    (heuristicStep S bl acc b).1 = acc.1 := by
  simp [heuristicStep, hb]

theorem step_total_ge (S : Solver) (bl : List Point) (acc : Int × Nat × Nat) (b : Point) :
    acc.1 ≤ (heuristicStep S bl acc b).1 := by
  by_cases hb : S.goalAt (S.toIdx b.row b.col) = true
  · rw [step_total_ongoal S bl acc b hb]
  · rw [Bool.not_eq_true] at hb
    cases hbest : (bestGoal S acc.2.1 b).2 with
    | none =>
      simp only [heuristicStep, hb, Bool.false_eq_true, if_false, hbest]
      by_cases hfr : S.isFrozenBoxUltraFast bl b.row b.col = true <;> simp [hfr] <;> omega
    | some j =>
      have hman : 0 ≤ (bestGoal S acc.2.1 b).1 := by
        obtain ⟨g, -, heq⟩ := (bestGoal_spec S acc.2.1 b).2 (by rw [hbest]; simp)
        rw [heq]
        exact manhattan_nonneg b g
      simp only [heuristicStep, hb, Bool.false_eq_true, if_false, hbest]
      by_cases hfr : S.isFrozenBoxUltraFast bl b.row b.col = true <;> simp [hfr] <;> omega

theorem fold_total_ge (S : Solver) (bl : List Point) :
    ∀ (boxes : List Point) (acc : Int × Nat × Nat),
      acc.1 ≤ (boxes.foldl (heuristicStep S bl) acc).1 := by
  intro boxes
  induction boxes with
  | nil => intro acc; exact le_refl _
  | cons b bs ih =>
    intro acc
    rw [List.foldl_cons]
    exact le_trans (step_total_ge S bl acc b) (ih _)

theorem step_maskCard_le (S : Solver) (bl : List Point) (acc : Int × Nat × Nat) (b : Point) :
    maskCard S (heuristicStep S bl acc b).2.1 ≤ maskCard S acc.2.1 + 1 := by
  by_cases hb : S.goalAt (S.toIdx b.row b.col) = true
  · simp only [heuristicStep, hb, if_true]
    cases hfi : S.findGoalIndex b.row b.col with
    | none => simp
    | some gi =>
      simp only
      exact maskCard_or_le ..
  · rw [Bool.not_eq_true] at hb
    cases hbest : (bestGoal S acc.2.1 b).2 with
    | none =>
      simp only [heuristicStep, hb, Bool.false_eq_true, if_false, hbest]
      omega
    | some j =>
      simp only [heuristicStep, hb, Bool.false_eq_true, if_false, hbest]
      exact maskCard_or_le ..

theorem step_onGoals (S : Solver) (bl : List Point) (acc : Int × Nat × Nat) (b : Point) :
    (heuristicStep S bl acc b).2.2 =
      if S.goalAt (S.toIdx b.row b.col) = true then acc.2.2 + 1 else acc.2.2 := by
  by_cases hb : S.goalAt (S.toIdx b.row b.col) = true
  · simp [heuristicStep, hb]
  · rw [Bool.not_eq_true] at hb
    cases hbest : (bestGoal S acc.2.1 b).2 <;> simp [heuristicStep, hb, hbest]

theorem fold_onGoals_le (S : Solver) (bl : List Point) :
    ∀ (boxes : List Point) (acc : Int × Nat × Nat),
      (boxes.foldl (heuristicStep S bl) acc).2.2 ≤ acc.2.2 + boxes.length := by
  intro boxes
  induction boxes with
  | nil => intro acc; simp
  | cons b bs ih =>
    intro acc
    rw [List.foldl_cons]
    have h := ih (heuristicStep S bl acc b)
    have hs := step_onGoals S bl acc b
    by_cases hb : S.goalAt (S.toIdx b.row b.col) = true <;>
      simp [hb] at hs <;> simp [List.length_cons] <;> omega

theorem fold_onGoals_lt (S : Solver) (bl : List Point) :
    ∀ (boxes : List Point) (acc : Int × Nat × Nat),
      (∃ b ∈ boxes, S.goalAt (S.toIdx b.row b.col) = false) →
      (boxes.foldl (heuristicStep S bl) acc).2.2 < acc.2.2 + boxes.length := by
  intro boxes
  induction boxes with
  | nil =>
    rintro acc ⟨b, hb, -⟩
    simp at hb
  | cons b bs ih =>
    rintro acc ⟨b', hb', hoff⟩
    rw [List.foldl_cons]
    have hs := step_onGoals S bl acc b
    rcases List.mem_cons.mp hb' with rfl | hb'
    · rw [hoff] at hs
      simp only [if_neg (by simp : ¬ (false = true))] at hs
      have hle := fold_onGoals_le S bl bs (heuristicStep S bl acc b')
      rw [hs] at hle
      simp [List.length_cons]
      omega
    · have hlt := ih (heuristicStep S bl acc b) ⟨b', hb', hoff⟩
      by_cases hb : S.goalAt (S.toIdx b.row b.col) = true <;>
        simp [hb] at hs <;> simp [List.length_cons] <;> omega

theorem fold_total_pos (S : Solver) (bl : List Point)
    (hgg : ∀ g ∈ S.goals, S.goalAt (S.toIdx g.row g.col) = true) :
    ∀ (boxes : List Point) (acc : Int × Nat × Nat),
      maskCard S acc.2.1 + boxes.length ≤ S.goals.length →
      (∀ b ∈ boxes, ∀ g ∈ S.goals, manhattan b g < 2 ^ 31 - 1) →
      (∃ b ∈ boxes, S.goalAt (S.toIdx b.row b.col) = false) →
      0 ≤ acc.1 →
      0 < (boxes.foldl (heuristicStep S bl) acc).1 := by
  intro boxes
  induction boxes with
  | nil =>
    rintro acc _ _ ⟨b, hb, -⟩
    simp at hb
  | cons b bs ih =>
    rintro acc hmask hdist ⟨b', hb', hoff⟩ htot
    rw [List.foldl_cons]
    by_cases hb : S.goalAt (S.toIdx b.row b.col) = true
    · have hb'bs : b' ∈ bs := by
        rcases List.mem_cons.mp hb' with rfl | h
        · rw [hb] at hoff
          exact absurd hoff (by simp)
        · exact h
      apply ih (heuristicStep S bl acc b)
      · have := step_maskCard_le S bl acc b
        simp [List.length_cons] at hmask
        omega
      · exact fun x hx g hg => hdist x (List.mem_cons_of_mem _ hx) g hg
      · exact ⟨b', hb'bs, hoff⟩
      · rw [step_total_ongoal S bl acc b hb]
        exact htot
    · rw [Bool.not_eq_true] at hb
      have hmlt : maskCard S acc.2.1 < S.goals.length := by
        simp [List.length_cons] at hmask
        omega
      have hsome := bestGoal_some_of_unused S acc.2.1 b (maskCard_lt_exists S _ hmlt)
        (hdist b (List.mem_cons_self ..))
      obtain ⟨j, hj⟩ := Option.ne_none_iff_exists'.mp hsome
      have hmin := bestGoal_pos S acc.2.1 b hgg hb hsome
      have hstep : 1 ≤ (heuristicStep S bl acc b).1 := by
        simp only [heuristicStep, hb, Bool.false_eq_true, if_false, hj]
        by_cases hfr : S.isFrozenBoxUltraFast bl b.row b.col = true <;> simp [hfr] <;> omega
      exact lt_of_lt_of_le (by omega) (fold_total_ge S bl bs (heuristicStep S bl acc b))

/-- Counterexample to C3 as stated: on `puzzleH0` (two boxes, one goal) the
start state — the first state popped from the heap — caches heuristic 0
although not every box is on a goal: the greedy scan finds no unused goal
for the off-goal box and adds nothing for it. -/
theorem c3_counterexample :
    (mkSolver puzzleH0 genPow).calculateHeuristic (parseStart puzzleH0).2 = 0 ∧
    (initState (mkSolver puzzleH0 genPow) (parseStart puzzleH0).1
      (parseStart puzzleH0).2 0).heuristic = 0 ∧
    (mkSolver puzzleH0 genPow).isSolvedBoxes (parseStart puzzleH0).2 = false := by
  refine ⟨by decide, by decide, by decide⟩

/-- Claim C3, amended: `is_solved_boxes` always forces heuristic 0 (claim
C8); the converse — heuristic 0 implies solved — holds for states whose box
count does not exceed the goal count (as in every well-formed puzzle),
whose box Zobrist key is nonzero (the storeless transposition table
spuriously reports 0 for key 0), whose goal list is registered in the goal
bitset, and whose box-goal distances stay below `i32::MAX`.  The claim as
stated fails when there are more boxes than goals, see
`c3_counterexample`. -/
theorem c3_heuristic_zero_iff_solved (S : Solver) (boxes : List Point)
    (hlen : boxes.length ≤ S.goals.length)
    (hkey : S.boxesZobristKey boxes ≠ 0)
    (hgg : ∀ g ∈ S.goals, S.goalAt (S.toIdx g.row g.col) = true)
    (hdist : ∀ b ∈ boxes, ∀ g ∈ S.goals, manhattan b g < 2 ^ 31 - 1) :
    (S.calculateHeuristic boxes = 0 ↔ S.isSolvedBoxes boxes = true) := by
  constructor
  · intro h0
    by_contra hns
    have hoff : ∃ b ∈ boxes, S.goalAt (S.toIdx b.row b.col) = false := by
      unfold Solver.isSolvedBoxes at hns
      rw [List.all_eq_true] at hns
      push_neg at hns
      obtain ⟨b, hb, hbo⟩ := hns
      refine ⟨b, hb, ?_⟩
      revert hbo
      cases S.goalAt (S.toIdx b.row b.col) <;> simp
    unfold Solver.calculateHeuristic at h0
    rw [ttProbe_of_ne_zero hkey] at h0
    simp only at h0
    have hlt := fold_onGoals_lt S boxes boxes (0, 0, 0) hoff
    have hne : ((boxes.foldl (heuristicStep S boxes) (0, 0, 0)).2.2 == boxes.length)
        = false := by
      rw [beq_eq_false_iff_ne]
      have hlt' : (boxes.foldl (heuristicStep S boxes) (0, 0, 0)).2.2
          < 0 + boxes.length := hlt
      omega
    rw [hne] at h0
    simp only [Bool.false_eq_true, if_false] at h0
    have hpos := fold_total_pos S boxes hgg boxes (0, 0, 0)
      (by simpa [maskCard_zero] using hlen) hdist hoff (le_refl 0)
    omega
  · intro hs
    apply heuristic_zero_of_solved
    intro b hb
    unfold Solver.isSolvedBoxes at hs
    rw [List.all_eq_true] at hs
    exact hs b hb

/-- Witness for the amended C3 on the one-push puzzle: one off-goal box and
one goal, heuristic 1 ≠ 0 and not solved. -/
theorem c3_heuristic_zero_iff_solved_witness :
    ([(⟨1, 2⟩ : Point)].length ≤ (mkSolver puzzle1 genPow).goals.length ∧
     (mkSolver puzzle1 genPow).boxesZobristKey [⟨1, 2⟩] ≠ 0 ∧
     (∀ g ∈ (mkSolver puzzle1 genPow).goals,
       (mkSolver puzzle1 genPow).goalAt
         ((mkSolver puzzle1 genPow).toIdx g.row g.col) = true) ∧
     (∀ b ∈ [(⟨1, 2⟩ : Point)], ∀ g ∈ (mkSolver puzzle1 genPow).goals,
       manhattan b g < 2 ^ 31 - 1)) ∧
    ((mkSolver puzzle1 genPow).calculateHeuristic [⟨1, 2⟩] = 0 ↔
      (mkSolver puzzle1 genPow).isSolvedBoxes [⟨1, 2⟩] = true) :=
  ⟨⟨by decide, by decide, by decide, by decide⟩,
    c3_heuristic_zero_iff_solved (mkSolver puzzle1 genPow) [⟨1, 2⟩]
      (by decide) (by decide) (by decide) (by decide)⟩

/-! ### C4: unequal box/goal counts -/

theorem nodup_set_of_not_mem {α : Type} (l : List α) (i : Nat) (p : α)
    (hnd : l.Nodup) (hp : p ∉ l) : (l.set i p).Nodup := by
  induction l generalizing i with
  | nil => simp
  | cons a tl ih =>
    cases i with
    | zero =>
      rw [List.set_cons_zero, List.nodup_cons]
      exact ⟨fun hc => hp (List.mem_cons_of_mem _ hc), (List.nodup_cons.mp hnd).2⟩
    | succ n =>
      rw [List.set_cons_succ, List.nodup_cons]
      obtain ⟨ha, htl⟩ := List.nodup_cons.mp hnd
      refine ⟨?_, ih n htl (fun hc => hp (List.mem_cons_of_mem _ hc))⟩
      intro hc
      rcases List.mem_or_eq_of_mem_set hc with hmem | rfl
      · exact ha hmem
      · exact hp (List.mem_cons_self ..)

theorem not_mem_of_any_false {boxes : List Point} {pr pc : Int}
    (h : boxes.any (fun b => b.row == pr && b.col == pc) = false) :
    (⟨pr, pc⟩ : Point) ∉ boxes := by
  intro hmem
  rw [List.any_eq_false] at h
  exact absurd (by simp : ((⟨pr, pc⟩ : Point).row == pr &&
    (⟨pr, pc⟩ : Point).col == pc) = true) (h _ hmem)

/-- The C4 search invariant: box positions stay pairwise distinct, the box
count never changes, and every box stays in bounds. -/
def c4Inv (S : Solver) (n0 : Nat) (s : State) : Prop :=
  s.boxes.Nodup ∧ s.boxes.length = n0 ∧ ∀ b ∈ s.boxes, S.isValid b.row b.col = true

theorem c4Inv_preserved (S : Solver) (n0 : Nat) :
    ∀ (cur : State) (v : Finset Nat), c4Inv S n0 cur → ∀ s ∈ S.expand cur v, c4Inv S n0 s := by
  rintro cur v ⟨hnd, hlen, hval⟩ s hs
  obtain ⟨dir, -, hplayer, -, -, -, -, hcase⟩ := expand_cases hs
  rcases hcase with ⟨-, hboxes, -, -⟩ | ⟨i, -, hpval, -, hpbox, -, -, hboxes, -, -⟩
  · unfold c4Inv
    rw [hboxes]
    exact ⟨hnd, hlen, hval⟩
  · unfold c4Inv
    rw [hboxes]
    have hpmem := not_mem_of_any_false hpbox
    refine ⟨nodup_set_of_not_mem _ _ _ hnd hpmem, by rw [List.length_set]; exact hlen, ?_⟩
    intro b hb
    rcases List.mem_or_eq_of_mem_set hb with hmem | rfl
    · exact hval b hmem
    · exact hpval

theorem solved_boxes_le_goals (S : Solver) (boxes : List Point)
    (hnd : boxes.Nodup)
    (hval : ∀ b ∈ boxes, S.isValid b.row b.col = true)
    (hgg : ∀ i, i < S.goalGrid.length → S.goalAt i = true →
      S.goals.any (fun g => S.toIdx g.row g.col == i) = true)
    (hsolved : S.isSolvedBoxes boxes = true) :
    boxes.length ≤ S.goals.length := by
  classical
  have hmapnd : (boxes.map (fun b => S.toIdx b.row b.col)).Nodup := by
    refine List.Nodup.map_on ?_ hnd
    intro x hx y hy hxy
    obtain ⟨hr, hc⟩ := idxOfRC_inj (hval x hx) (hval y hy) hxy
    cases x
    cases y
    exact Point.mk.injEq .. ▸ ⟨hr, hc⟩
  have hsub : (boxes.map (fun b => S.toIdx b.row b.col)).toFinset
      ⊆ (S.goals.map (fun g => S.toIdx g.row g.col)).toFinset := by
    intro x hx
    rw [List.mem_toFinset] at hx ⊢
    obtain ⟨b, hb, rfl⟩ := List.mem_map.mp hx
    have hgoal : S.goalAt (S.toIdx b.row b.col) = true := by
      unfold Solver.isSolvedBoxes at hsolved
      rw [List.all_eq_true] at hsolved
      exact hsolved b hb
    have hlt : S.toIdx b.row b.col < S.goalGrid.length := by
      by_contra hge
      push_neg at hge
      rw [Solver.goalAt, getD_of_ge_length _ _ _ hge] at hgoal
      exact absurd hgoal (by simp)
    have hany := hgg _ hlt hgoal
    rw [List.any_eq_true] at hany
    obtain ⟨g, hg, hgi⟩ := hany
    rw [beq_iff_eq] at hgi
    exact List.mem_map.mpr ⟨g, hg, hgi⟩
  calc boxes.length = (boxes.map (fun b => S.toIdx b.row b.col)).length := by
        rw [List.length_map]
    _ = (boxes.map (fun b => S.toIdx b.row b.col)).toFinset.card :=
        (List.toFinset_card_of_nodup hmapnd).symm
    _ ≤ (S.goals.map (fun g => S.toIdx g.row g.col)).toFinset.card :=
        Finset.card_le_card hsub
    _ ≤ (S.goals.map (fun g => S.toIdx g.row g.col)).length := List.toFinset_card_le _
    _ = S.goals.length := by rw [List.length_map]

/-- Counterexample to C4 as stated: `puzzleFewBoxes` has 1 box but 2 goals —
unequal counts — yet `solve` pushes the box onto the nearer goal and returns
the non-empty string `"r"`: `is_solved_boxes` only asks that every box sit
on a goal, it does not ask that every goal carry a box. -/
theorem c4_counterexample :
    (parseStart puzzleFewBoxes).2.length = 1 ∧
    (mkSolver puzzleFewBoxes genPow).goals.length = 2 ∧
    solveP puzzleFewBoxes genPow = some "r" :=
  ⟨by decide, by decide, by decide⟩

/-- Claim C4, amended: only for puzzles with *more boxes than goals* is the
search guaranteed to return the empty string (given distinct in-bounds
initial boxes and a goal bitset registered from the goal list): box
distinctness and count are search invariants, so by pigeonhole no reachable
state can place all boxes on goal cells.  With *fewer* boxes than goals the
claim as stated fails, see `c4_counterexample`. -/
theorem c4_more_boxes_unsolvable (puzzle : String) (gen : Nat → Nat × Nat) (str : String)
    (hnd : (parseStart puzzle).2.Nodup)
    (hval : ∀ b ∈ (parseStart puzzle).2, (mkSolver puzzle gen).isValid b.row b.col = true)
    (hgg : ∀ i, i < (mkSolver puzzle gen).goalGrid.length →
      (mkSolver puzzle gen).goalAt i = true →
      (mkSolver puzzle gen).goals.any
        (fun g => (mkSolver puzzle gen).toIdx g.row g.col == i) = true)
    (hcnt : (mkSolver puzzle gen).goals.length < (parseStart puzzle).2.length)
    (h : solveP puzzle gen = some str) :
    str = "" := by
  unfold solveP at h
  obtain ⟨out, hout, rfl⟩ := Option.map_eq_some'.mp h
  unfold solveTraceP Solver.solveTrace at hout
  cases hh0 : (mkSolver puzzle gen).calculateZobristHash (parseStart puzzle).1
      (parseStart puzzle).2 with
  | none => rw [hh0] at hout; simp at hout
  | some h0 =>
    rw [hh0] at hout
    simp only [Option.some_bind] at hout
    have hinit : c4Inv (mkSolver puzzle gen) (parseStart puzzle).2.length
        (initState (mkSolver puzzle gen) (parseStart puzzle).1 (parseStart puzzle).2 h0) :=
      ⟨hnd, rfl, hval⟩
    have hres := runLoop_invariant (S := mkSolver puzzle gen)
      (c4Inv (mkSolver puzzle gen) (parseStart puzzle).2.length)
      (c4Inv_preserved _ _) solveFuel _ _ _ out hout
      (by intro s hs; simp at hs; subst hs; exact hinit)
      (by intro s hs; simp at hs; subst hs; exact hinit)
    rcases hres.2 with hempty | ⟨s, ⟨hsnd, hslen, hsval⟩, hsolved, hpath⟩
    · rw [hempty]
      rfl
    · have hle := solved_boxes_le_goals (mkSolver puzzle gen) s.boxes hsnd hsval hgg hsolved
      omega

/-- Witness for the amended C4 on the goalless one-box puzzle: 0 goals < 1
box, the hypotheses hold concretely, the search exhausts the heap and the
output is the empty string. -/
theorem c4_more_boxes_unsolvable_witness :
    ((parseStart puzzleMoreBoxes).2.Nodup ∧
     (∀ b ∈ (parseStart puzzleMoreBoxes).2,
       (mkSolver puzzleMoreBoxes genPow).isValid b.row b.col = true) ∧
     (∀ i, i < (mkSolver puzzleMoreBoxes genPow).goalGrid.length →
       (mkSolver puzzleMoreBoxes genPow).goalAt i = true →
       (mkSolver puzzleMoreBoxes genPow).goals.any
         (fun g => (mkSolver puzzleMoreBoxes genPow).toIdx g.row g.col == i) = true) ∧
     (mkSolver puzzleMoreBoxes genPow).goals.length < (parseStart puzzleMoreBoxes).2.length ∧
     solveP puzzleMoreBoxes genPow = some "") ∧
    ("" : String) = "" :=
  ⟨⟨by decide, by decide, by decide, by decide, by decide⟩,
    c4_more_boxes_unsolvable puzzleMoreBoxes genPow ""
      (by decide) (by decide) (by decide) (by decide) (by decide)⟩

/-! ### C6: dead squares are the complement of the pull-reachability LFP -/

/-- The pull condition of one direction in `precompute_static_deadlocks`:
origin `o = t + d` and player cell `p = o + d` are both in-bounds non-wall. -/
def pullCond (width height : Nat) (map : List Nat) (t : Point) (d : Int × Int) : Bool :=
  validRC width height (t.row + d.1) (t.col + d.2) &&
  validRC width height (t.row + d.1 + d.1) (t.col + d.2 + d.2) &&
  (map.getD (idxOfRC width (t.row + d.1) (t.col + d.2)) 1 != 1) &&
  (map.getD (idxOfRC width (t.row + d.1 + d.1) (t.col + d.2 + d.2)) 1 != 1)

/-- The step function folded over `dirOffsets` by `pullStepDirs`. -/
def pullStepF (width height : Nat) (map : List Nat) (t : Point)
    (acc : List Bool × List Point) (d : Int × Int) : List Bool × List Point :=
  let o : Point := ⟨t.row + d.1, t.col + d.2⟩
  let p : Point := ⟨o.row + d.1, o.col + d.2⟩
  let oIdx := idxOfRC width o.row o.col
  if validRC width height o.row o.col && validRC width height p.row p.col
      && (map.getD oIdx 1 != 1) && (map.getD (idxOfRC width p.row p.col) 1 != 1)
      && !(acc.1.getD oIdx false) then
    (acc.1.set oIdx true, acc.2 ++ [o])
  else acc

theorem pullStepDirs_eq (width height : Nat) (map : List Nat) (t : Point)
    (acc : List Bool × List Point) :
    pullStepDirs width height map t acc =
      dirOffsets.foldl (pullStepF width height map t) acc := rfl

theorem pullStepF_eq (width height : Nat) (map : List Nat) (t : Point)
    (acc : List Bool × List Point) (d : Int × Int) :
    pullStepF width height map t acc d =
      if pullCond width height map t d
          && !(acc.1.getD (idxOfRC width (t.row + d.1) (t.col + d.2)) false) then
        (acc.1.set (idxOfRC width (t.row + d.1) (t.col + d.2)) true,
         acc.2 ++ [(⟨t.row + d.1, t.col + d.2⟩ : Point)])
      else acc := rfl

theorem pullCond_parts {width height : Nat} {map : List Nat} {t : Point} {d : Int × Int}
    (h : pullCond width height map t d = true) :
    validRC width height (t.row + d.1) (t.col + d.2) = true ∧
    validRC width height (t.row + d.1 + d.1) (t.col + d.2 + d.2) = true ∧
    map.getD (idxOfRC width (t.row + d.1) (t.col + d.2)) 1 ≠ 1 ∧
    map.getD (idxOfRC width (t.row + d.1 + d.1) (t.col + d.2 + d.2)) 1 ≠ 1 := by
  simp only [pullCond, Bool.and_eq_true, bne_iff_ne, ne_eq] at h
  exact ⟨h.1.1.1, h.1.1.2, h.1.2, h.2⟩

theorem pullCond_of_parts {width height : Nat} {map : List Nat} {t : Point} {d : Int × Int}
    (hvo : validRC width height (t.row + d.1) (t.col + d.2) = true)
    (hvp : validRC width height (t.row + d.1 + d.1) (t.col + d.2 + d.2) = true)
    (hmo : map.getD (idxOfRC width (t.row + d.1) (t.col + d.2)) 1 ≠ 1)
    (hmp : map.getD (idxOfRC width (t.row + d.1 + d.1) (t.col + d.2 + d.2)) 1 ≠ 1) :
    pullCond width height map t d = true := by
  simp only [pullCond, Bool.and_eq_true, bne_iff_ne, ne_eq]
  exact ⟨⟨⟨hvo, hvp⟩, hmo⟩, hmp⟩

theorem getD_set_true_mono {l : List Bool} {i j : Nat} (h : l.getD i false = true) :
    (l.set j true).getD i false = true := by
  by_cases hij : j = i
  · subst hij
    rw [getD_set_self _ _ _ _ (getD_true_lt_length h)]
  · rw [getD_set_ne _ _ _ _ _ hij]
    exact h

theorem pullFold_length (width height : Nat) (map : List Nat) (t : Point) :
    ∀ (ds : List (Int × Int)) (acc : List Bool × List Point),
      (ds.foldl (pullStepF width height map t) acc).1.length = acc.1.length := by
  intro ds
  induction ds with
  | nil => intro acc; rfl
  | cons d ds ih =>
    intro acc
    rw [List.foldl_cons, ih, pullStepF_eq]
    split
    · simp [List.length_set]
    · rfl

theorem pullFold_mono (width height : Nat) (map : List Nat) (t : Point) :
    ∀ (ds : List (Int × Int)) (acc : List Bool × List Point) (i : Nat),
      acc.1.getD i false = true →
      (ds.foldl (pullStepF width height map t) acc).1.getD i false = true := by
  intro ds
  induction ds with
  | nil => intro acc i h; exact h
  | cons d ds ih =>
    intro acc i h
    rw [List.foldl_cons]
    apply ih
    rw [pullStepF_eq]
    split
    · exact getD_set_true_mono h
    · exact h

theorem pullFold_closed (width height : Nat) (map : List Nat) (t : Point) :
    ∀ (ds : List (Int × Int)) (acc : List Bool × List Point),
      acc.1.length = width * height →
      ∀ d ∈ ds, pullCond width height map t d = true →
      (ds.foldl (pullStepF width height map t) acc).1.getD
        (idxOfRC width (t.row + d.1) (t.col + d.2)) false = true := by
  intro ds
  induction ds with
  | nil => intro acc _ d hd; simp at hd
  | cons d0 ds ih =>
    intro acc hlen d hd hcond
    rw [List.foldl_cons]
    rcases List.mem_cons.mp hd with rfl | hd
    · apply pullFold_mono
      have hvo : validRC width height (t.row + d.1) (t.col + d.2) = true :=
        (pullCond_parts hcond).1
      have hidx : idxOfRC width (t.row + d.1) (t.col + d.2) < acc.1.length := by
        rw [hlen]
        exact (idxOfRC_valid hvo).2
      by_cases hmark : acc.1.getD (idxOfRC width (t.row + d.1) (t.col + d.2)) false = true
      · rw [pullStepF_eq]
        split
        · exact getD_set_true_mono hmark
        · exact hmark
      · rw [Bool.not_eq_true] at hmark
        rw [pullStepF_eq, if_pos (by rw [hcond, hmark]; rfl)]
        exact getD_set_self _ _ _ _ hidx
    · have hlen' : (pullStepF width height map t acc d0).1.length = width * height := by
        rw [pullStepF_eq]
        split
        · simpa [List.length_set] using hlen
        · exact hlen
      exact ih _ hlen' d hd hcond

theorem pullFold_new (width height : Nat) (map : List Nat) (t : Point) :
    ∀ (ds : List (Int × Int)) (acc : List Bool × List Point),
      ∃ new : List Point,
        (ds.foldl (pullStepF width height map t) acc).2 = acc.2 ++ new ∧
        (∀ x ∈ new, ∃ d ∈ ds, x = (⟨t.row + d.1, t.col + d.2⟩ : Point) ∧
          pullCond width height map t d = true) ∧
        (∀ i, (ds.foldl (pullStepF width height map t) acc).1.getD i false = true →
          acc.1.getD i false = true ∨ ∃ x ∈ new, idxOfRC width x.row x.col = i) := by
  intro ds
  induction ds with
  | nil =>
    intro acc
    exact ⟨[], by simp, by simp, fun i h => Or.inl h⟩
  | cons d0 ds ih =>
    intro acc
    obtain ⟨new', h2, hmem, hmark⟩ := ih (pullStepF width height map t acc d0)
    rw [List.foldl_cons]
    by_cases hstep : (pullCond width height map t d0
        && !(acc.1.getD (idxOfRC width (t.row + d0.1) (t.col + d0.2)) false)) = true
    · refine ⟨(⟨t.row + d0.1, t.col + d0.2⟩ : Point) :: new', ?_, ?_, ?_⟩
      · rw [h2, pullStepF_eq, if_pos hstep]
        simp
      · intro x hx
        rcases List.mem_cons.mp hx with rfl | hx
        · exact ⟨d0, List.mem_cons_self .., rfl, (Bool.and_eq_true .. |>.mp hstep).1⟩
        · obtain ⟨d, hd, hxd, hc⟩ := hmem x hx
          exact ⟨d, List.mem_cons_of_mem _ hd, hxd, hc⟩
      · intro i hi
        rcases hmark i hi with hold | ⟨x, hx, hxi⟩
        · by_cases hij : idxOfRC width (t.row + d0.1) (t.col + d0.2) = i
          · exact Or.inr ⟨⟨t.row + d0.1, t.col + d0.2⟩, List.mem_cons_self .., hij⟩
          · left
            have hold' : (acc.1.set (idxOfRC width (t.row + d0.1) (t.col + d0.2))
                true).getD i false = true := by
              rw [pullStepF_eq, if_pos hstep] at hold
              exact hold
            rw [getD_set_ne _ _ _ _ _ hij] at hold'
            exact hold'
        · exact Or.inr ⟨x, List.mem_cons_of_mem _ hx, hxi⟩
    · have heq : pullStepF width height map t acc d0 = acc := by
        rw [pullStepF_eq, if_neg hstep]
      rw [heq] at h2 hmark
      rw [heq]
      refine ⟨new', h2, ?_, hmark⟩
      intro x hx
      obtain ⟨d, hd, hxd, hc⟩ := hmem x hx
      exact ⟨d, List.mem_cons_of_mem _ hd, hxd, hc⟩

theorem pullFold_count (width height : Nat) (map : List Nat) (t : Point) :
    ∀ (ds : List (Int × Int)) (acc : List Bool × List Point),
      acc.1.length = width * height →
      (ds.foldl (pullStepF width height map t) acc).1.count true + acc.2.length
        = acc.1.count true + (ds.foldl (pullStepF width height map t) acc).2.length := by
  intro ds
  induction ds with
  | nil => intro acc _; rfl
  | cons d0 ds ih =>
    intro acc hlen
    rw [List.foldl_cons]
    by_cases hstep : (pullCond width height map t d0
        && !(acc.1.getD (idxOfRC width (t.row + d0.1) (t.col + d0.2)) false)) = true
    · have hcnd := (Bool.and_eq_true ..).mp hstep
      have hvo : validRC width height (t.row + d0.1) (t.col + d0.2) = true :=
        (pullCond_parts hcnd.1).1
      have hfalse : acc.1.getD (idxOfRC width (t.row + d0.1) (t.col + d0.2)) false = false := by
        have h2 := hcnd.2
        revert h2
        cases acc.1.getD (idxOfRC width (t.row + d0.1) (t.col + d0.2)) false <;> simp
      have hlt : idxOfRC width (t.row + d0.1) (t.col + d0.2) < acc.1.length := by
        rw [hlen]
        exact (idxOfRC_valid hvo).2
      have hcount : (pullStepF width height map t acc d0).1.count true
          = acc.1.count true + 1 := by
        rw [pullStepF_eq, if_pos hstep]
        exact count_true_set hlt hfalse
      have hqlen : (pullStepF width height map t acc d0).2.length = acc.2.length + 1 := by
        rw [pullStepF_eq, if_pos hstep]
        simp
      have hlen' : (pullStepF width height map t acc d0).1.length = width * height := by
        rw [pullStepF_eq, if_pos hstep]
        simpa [List.length_set] using hlen
      have hih := ih (pullStepF width height map t acc d0) hlen'
      omega
    · have hcount : (pullStepF width height map t acc d0).1.count true
          = acc.1.count true := by
        rw [pullStepF_eq, if_neg hstep]
      have hqlen : (pullStepF width height map t acc d0).2.length = acc.2.length := by
        rw [pullStepF_eq, if_neg hstep]
      have hlen' : (pullStepF width height map t acc d0).1.length = width * height := by
        rw [pullStepF_eq, if_neg hstep]
        exact hlen
      have hih := ih (pullStepF width height map t acc d0) hlen'
      omega

/-- A point is determined by its cell index among in-bounds points. -/
theorem point_eq_of_idx_eq {width height : Nat} {p q : Point}
    (hp : validRC width height p.row p.col = true)
    (hq : validRC width height q.row q.col = true)
    (h : idxOfRC width p.row p.col = idxOfRC width q.row q.col) : p = q := by
  obtain ⟨hr, hc⟩ := idxOfRC_inj hp hq h
  cases p
  cases q
  exact congrArg₂ Point.mk hr hc

/-- Every live point of the specification's fixed point is in bounds. -/
theorem Live_valid {width height : Nat} {map : List Nat} {goals : List Point}
    (hgoals : ∀ g ∈ goals, validRC width height g.row g.col = true)
    {p : Point} (h : Live width height map goals p) :
    validRC width height p.row p.col = true := by
  induction h with
  | goal g hg => exact hgoals g hg
  | pull t d hd ht hvo hvp hmo hmp ih => exact hvo

/-- The invariant of the pull-flood loop: the live bitmap has one entry per
cell, queue members are in-bounds live points, every marked cell is the
cell of some live point, and every marked cell is either still queued or
already has all its pull successors marked. -/
def DeadInv (width height : Nat) (map : List Nat) (goals : List Point)
    (q : List Point) (live : List Bool) : Prop :=
  live.length = width * height ∧
  (∀ t ∈ q, validRC width height t.row t.col = true ∧ Live width height map goals t) ∧
  (∀ i, live.getD i false = true →
    ∃ p : Point, validRC width height p.row p.col = true ∧
      idxOfRC width p.row p.col = i ∧ Live width height map goals p) ∧
  (∀ u : Point, validRC width height u.row u.col = true →
    live.getD (idxOfRC width u.row u.col) false = true →
    (∃ t' ∈ q, idxOfRC width t'.row t'.col = idxOfRC width u.row u.col) ∨
    (∀ d ∈ dirOffsets, pullCond width height map u d = true →
      live.getD (idxOfRC width (u.row + d.1) (u.col + d.2)) false = true))

theorem deadLoop_spec (width height : Nat) (map : List Nat) (goals : List Point) :
    ∀ (fuel : Nat) (q : List Point) (live : List Bool),
      DeadInv width height map goals q live →
      q.length + (width * height - live.count true) < fuel →
      (∀ i, live.getD i false = true →
        (deadLoop width height map fuel q live).getD i false = true) ∧
      (∀ i, (deadLoop width height map fuel q live).getD i false = true →
        ∃ p : Point, validRC width height p.row p.col = true ∧
          idxOfRC width p.row p.col = i ∧ Live width height map goals p) ∧
      (∀ u : Point, validRC width height u.row u.col = true →
        (deadLoop width height map fuel q live).getD (idxOfRC width u.row u.col) false = true →
        ∀ d ∈ dirOffsets, pullCond width height map u d = true →
        (deadLoop width height map fuel q live).getD
          (idxOfRC width (u.row + d.1) (u.col + d.2)) false = true) := by
  intro fuel
  induction fuel with
  | zero =>
    intro q live _ hm
    exact absurd hm (by omega)
  | succ fuel ih =>
    intro q live hinv hm
    obtain ⟨hlen, hq, hsound, hclosed⟩ := hinv
    cases q with
    | nil =>
      rw [show deadLoop width height map (fuel + 1) [] live = live from rfl]
      refine ⟨fun i h => h, hsound, ?_⟩
      intro u hu hmark d hd hcond
      rcases hclosed u hu hmark with ⟨t', ht', -⟩ | hcl
      · simp at ht'
      · exact hcl d hd hcond
    | cons t q' =>
      rw [show deadLoop width height map (fuel + 1) (t :: q') live
          = deadLoop width height map fuel
              (q' ++ (pullStepDirs width height map t (live, [])).2)
              (pullStepDirs width height map t (live, [])).1 from rfl,
        pullStepDirs_eq]
      obtain ⟨new, hq2, hnewmem, hnewmark⟩ :=
        pullFold_new width height map t dirOffsets (live, [])
      have hq2' : (dirOffsets.foldl (pullStepF width height map t) (live, [])).2 = new := by
        simpa using hq2
      rw [hq2']
      have hlenF : (dirOffsets.foldl (pullStepF width height map t) (live, [])).1.length
          = width * height := by
        rw [pullFold_length]
        exact hlen
      have htv : validRC width height t.row t.col = true := (hq t (List.mem_cons_self ..)).1
      have htlive : Live width height map goals t := (hq t (List.mem_cons_self ..)).2
      have hnewok : ∀ x ∈ new, validRC width height x.row x.col = true ∧
          Live width height map goals x := by
        intro x hx
        obtain ⟨d, hd, rfl, hc⟩ := hnewmem x hx
        obtain ⟨hvo, hvp, hmo, hmp⟩ := pullCond_parts hc
        exact ⟨hvo, Live.pull t d hd htlive hvo hvp hmo hmp⟩
      have hinv' : DeadInv width height map goals (q' ++ new)
          (dirOffsets.foldl (pullStepF width height map t) (live, [])).1 := by
        refine ⟨hlenF, ?_, ?_, ?_⟩
        · intro x hx
          rcases List.mem_append.mp hx with hx | hx
          · exact hq x (List.mem_cons_of_mem _ hx)
          · exact hnewok x hx
        · intro i hi
          rcases hnewmark i hi with hold | ⟨x, hx, hxi⟩
          · exact hsound i hold
          · obtain ⟨hxv, hxl⟩ := hnewok x hx
            exact ⟨x, hxv, hxi, hxl⟩
        · intro u hu hmark
          rcases hnewmark _ hmark with hold | ⟨x, hx, hxi⟩
          · rcases hclosed u hu hold with ⟨t', ht', hti⟩ | hcl
            · rcases List.mem_cons.mp ht' with rfl | ht'
              · obtain rfl := point_eq_of_idx_eq htv hu hti
                right
                intro d hd hcond
                exact pullFold_closed width height map _ dirOffsets (live, []) hlen d hd hcond
              · exact Or.inl ⟨t', List.mem_append_left _ ht', hti⟩
            · right
              intro d hd hcond
              exact pullFold_mono width height map t dirOffsets (live, []) _ (hcl d hd hcond)
          · exact Or.inl ⟨x, List.mem_append_right _ hx, hxi⟩
      have hcnt : (dirOffsets.foldl (pullStepF width height map t) (live, [])).1.count true + 0
          = live.count true
            + (dirOffsets.foldl (pullStepF width height map t) (live, [])).2.length :=
        pullFold_count width height map t dirOffsets (live, []) hlen
      rw [hq2'] at hcnt
      have hcle : (dirOffsets.foldl (pullStepF width height map t) (live, [])).1.count true
          ≤ width * height := by
        calc (dirOffsets.foldl (pullStepF width height map t) (live, [])).1.count true
            ≤ (dirOffsets.foldl (pullStepF width height map t) (live, [])).1.length :=
              List.count_le_length _ _
          _ = width * height := hlenF
      rw [List.length_cons] at hm
      have hm' : (q' ++ new).length
          + (width * height
            - (dirOffsets.foldl (pullStepF width height map t) (live, [])).1.count true)
          < fuel := by
        rw [List.length_append]
        omega
      obtain ⟨ihmono, ihsound, ihclosed⟩ := ih (q' ++ new)
        (dirOffsets.foldl (pullStepF width height map t) (live, [])).1 hinv' hm'
      refine ⟨?_, ihsound, ihclosed⟩
      intro i h
      exact ihmono i (pullFold_mono width height map t dirOffsets (live, []) i h)

theorem getD_replicate_false (n i : Nat) : (List.replicate n false).getD i false = false := by
  by_cases h : i < n
  · rw [getD_eq_get _ _ _ (by simpa using h)]
    simp [List.get_replicate]
  · exact getD_of_ge_length _ _ _ (by simpa using Nat.le_of_not_lt h)

theorem seed_length (width : Nat) :
    ∀ (gs : List Point) (lv : List Bool),
      (gs.foldl (fun lv g => lv.set (idxOfRC width g.row g.col) true) lv).length
        = lv.length := by
  intro gs
  induction gs with
  | nil => intro lv; rfl
  | cons g gs ih => intro lv; rw [List.foldl_cons, ih, List.length_set]

theorem seed_mono (width : Nat) :
    ∀ (gs : List Point) (lv : List Bool) (i : Nat), lv.getD i false = true →
      (gs.foldl (fun lv g => lv.set (idxOfRC width g.row g.col) true) lv).getD i false
        = true := by
  intro gs
  induction gs with
  | nil => intro lv i h; exact h
  | cons g gs ih =>
    intro lv i h
    rw [List.foldl_cons]
    exact ih _ i (getD_set_true_mono h)

theorem seed_marked (width : Nat) :
    ∀ (gs : List Point) (lv : List Bool) (g : Point), g ∈ gs →
      idxOfRC width g.row g.col < lv.length →
      (gs.foldl (fun lv g => lv.set (idxOfRC width g.row g.col) true) lv).getD
        (idxOfRC width g.row g.col) false = true := by
  intro gs
  induction gs with
  | nil => intro lv g hg; simp at hg
  | cons g0 gs ih =>
    intro lv g hg hlt
    rw [List.foldl_cons]
    rcases List.mem_cons.mp hg with rfl | hg
    · exact seed_mono width gs _ _ (getD_set_self _ _ _ _ hlt)
    · exact ih _ g hg (by rw [List.length_set]; exact hlt)

theorem seed_sound (width : Nat) :
    ∀ (gs : List Point) (lv : List Bool) (i : Nat),
      (gs.foldl (fun lv g => lv.set (idxOfRC width g.row g.col) true) lv).getD i false
        = true →
      lv.getD i false = true ∨ ∃ g ∈ gs, idxOfRC width g.row g.col = i := by
  intro gs
  induction gs with
  | nil => intro lv i h; exact Or.inl h
  | cons g0 gs ih =>
    intro lv i h
    rw [List.foldl_cons] at h
    rcases ih _ i h with h0 | ⟨g, hg, hgi⟩
    · by_cases hij : idxOfRC width g0.row g0.col = i
      · exact Or.inr ⟨g0, List.mem_cons_self .., hij⟩
      · rw [getD_set_ne _ _ _ _ _ hij] at h0
        exact Or.inl h0
    · exact Or.inr ⟨g, List.mem_cons_of_mem _ hg, hgi⟩

theorem liveSquares_eq (width height : Nat) (map : List Nat) (goals : List Point) :
    liveSquares width height map goals
      = deadLoop width height map (goals.length + width * height + 1) goals
          (goals.foldl (fun lv g => lv.set (idxOfRC width g.row g.col) true)
            (List.replicate (width * height) false)) := rfl

theorem precomputeStaticDeadlocks_eq (width height : Nat) (map : List Nat)
    (goals : List Point) :
    precomputeStaticDeadlocks width height map goals
      = (List.range (width * height)).map
          (fun i => (map.getD i 1 != 1)
            && !((liveSquares width height map goals).getD i false)) := rfl

set_option maxHeartbeats 2000000 in
/-- Claim C6: `precompute_static_deadlocks` computes exactly the
specification's least fixed point of pull reachability — for in-bounds
goals, an in-bounds cell is marked live iff it is in the fixed point, a
cell is marked dead iff it is non-wall and not in the fixed point, and no
goal cell is ever marked dead. -/
theorem c6_dead_squares_lfp (width height : Nat) (map : List Nat) (goals : List Point)
    (hgoals : ∀ g ∈ goals, validRC width height g.row g.col = true) :
    (∀ p : Point, validRC width height p.row p.col = true →
      ((liveSquares width height map goals).getD (idxOfRC width p.row p.col) false = true ↔
        Live width height map goals p)) ∧
    (∀ p : Point, validRC width height p.row p.col = true →
      ((precomputeStaticDeadlocks width height map goals).getD
          (idxOfRC width p.row p.col) false = true ↔
        (map.getD (idxOfRC width p.row p.col) 1 ≠ 1 ∧ ¬ Live width height map goals p))) ∧
    (∀ g ∈ goals, (precomputeStaticDeadlocks width height map goals).getD
        (idxOfRC width g.row g.col) false = false) := by
  have hlen0 : (goals.foldl (fun lv g => lv.set (idxOfRC width g.row g.col) true)
      (List.replicate (width * height) false)).length = width * height := by
    rw [seed_length]
    simp
  have hinv : DeadInv width height map goals goals
      (goals.foldl (fun lv g => lv.set (idxOfRC width g.row g.col) true)
        (List.replicate (width * height) false)) := by
    refine ⟨hlen0, ?_, ?_, ?_⟩
    · intro t ht
      exact ⟨hgoals t ht, Live.goal t ht⟩
    · intro i hi
      rcases seed_sound width goals _ i hi with h0 | ⟨g, hg, hgi⟩
      · rw [getD_replicate_false] at h0
        exact absurd h0 (by simp)
      · exact ⟨g, hgoals g hg, hgi, Live.goal g hg⟩
    · intro u hu hmark
      rcases seed_sound width goals _ _ hmark with h0 | ⟨g, hg, hgi⟩
      · rw [getD_replicate_false] at h0
        exact absurd h0 (by simp)
      · exact Or.inl ⟨g, hg, hgi⟩
  have hm : goals.length + (width * height
      - (goals.foldl (fun lv g => lv.set (idxOfRC width g.row g.col) true)
          (List.replicate (width * height) false)).count true)
      < goals.length + width * height + 1 := by
    omega
  obtain ⟨hmono, hsound, hclosed⟩ := deadLoop_spec width height map goals
    (goals.length + width * height + 1) goals
    (goals.foldl (fun lv g => lv.set (idxOfRC width g.row g.col) true)
      (List.replicate (width * height) false)) hinv hm
  rw [← liveSquares_eq] at hmono hsound hclosed
  have hcomplete : ∀ p : Point, Live width height map goals p →
      (liveSquares width height map goals).getD (idxOfRC width p.row p.col) false = true := by
    intro p hl
    induction hl with
    | goal g hg =>
      apply hmono
      apply seed_marked width goals _ g hg
      rw [List.length_replicate]
      exact (idxOfRC_valid (hgoals g hg)).2
    | pull t d hd ht hvo hvp hmo hmp ih =>
      exact hclosed t (Live_valid hgoals ht) ih d hd (pullCond_of_parts hvo hvp hmo hmp)
  have hpart1 : ∀ p : Point, validRC width height p.row p.col = true →
      ((liveSquares width height map goals).getD (idxOfRC width p.row p.col) false = true ↔
        Live width height map goals p) := by
    intro p hp
    constructor
    · intro h
      obtain ⟨p', hp', hpi, hpl⟩ := hsound _ h
      exact (point_eq_of_idx_eq hp' hp hpi) ▸ hpl
    · exact hcomplete p
  refine ⟨hpart1, ?_, ?_⟩
  · intro p hp
    have hi : idxOfRC width p.row p.col < width * height := (idxOfRC_valid hp).2
    rw [precomputeStaticDeadlocks_eq, getD_map_range _ _ hi _ false]
    constructor
    · intro h
      simp only [Bool.and_eq_true, bne_iff_ne, ne_eq, Bool.not_eq_true'] at h
      refine ⟨h.1, ?_⟩
      intro hl
      exact absurd ((hpart1 p hp).mpr hl) (by rw [h.2]; simp)
    · rintro ⟨hm1, hnl⟩
      simp only [Bool.and_eq_true, bne_iff_ne, ne_eq, Bool.not_eq_true']
      refine ⟨hm1, ?_⟩
      cases hlv : (liveSquares width height map goals).getD (idxOfRC width p.row p.col) false
      · rfl
      · exact absurd ((hpart1 p hp).mp hlv) hnl
  · intro g hg
    have hp := hgoals g hg
    have hi : idxOfRC width g.row g.col < width * height := (idxOfRC_valid hp).2
    rw [precomputeStaticDeadlocks_eq, getD_map_range _ _ hi _ false]
    rw [hcomplete g (Live.goal g hg)]
    simp

/-- Witness for C6 on the one-push puzzle, instantiated at its concrete
board and goal list. -/
theorem c6_dead_squares_lfp_witness :
    (∀ g ∈ (mkSolver puzzle1 genPow).goals,
      validRC (mkSolver puzzle1 genPow).width (mkSolver puzzle1 genPow).height
        g.row g.col = true) ∧
    ((∀ p : Point, validRC (mkSolver puzzle1 genPow).width (mkSolver puzzle1 genPow).height
        p.row p.col = true →
      ((liveSquares (mkSolver puzzle1 genPow).width (mkSolver puzzle1 genPow).height
          (mkSolver puzzle1 genPow).map (mkSolver puzzle1 genPow).goals).getD
          (idxOfRC (mkSolver puzzle1 genPow).width p.row p.col) false = true ↔
        Live (mkSolver puzzle1 genPow).width (mkSolver puzzle1 genPow).height
          (mkSolver puzzle1 genPow).map (mkSolver puzzle1 genPow).goals p)) ∧
    (∀ p : Point, validRC (mkSolver puzzle1 genPow).width (mkSolver puzzle1 genPow).height
        p.row p.col = true →
      ((precomputeStaticDeadlocks (mkSolver puzzle1 genPow).width
          (mkSolver puzzle1 genPow).height (mkSolver puzzle1 genPow).map
          (mkSolver puzzle1 genPow).goals).getD
          (idxOfRC (mkSolver puzzle1 genPow).width p.row p.col) false = true ↔
        ((mkSolver puzzle1 genPow).map.getD
            (idxOfRC (mkSolver puzzle1 genPow).width p.row p.col) 1 ≠ 1 ∧
          ¬ Live (mkSolver puzzle1 genPow).width (mkSolver puzzle1 genPow).height
            (mkSolver puzzle1 genPow).map (mkSolver puzzle1 genPow).goals p))) ∧
    (∀ g ∈ (mkSolver puzzle1 genPow).goals,
      (precomputeStaticDeadlocks (mkSolver puzzle1 genPow).width
          (mkSolver puzzle1 genPow).height (mkSolver puzzle1 genPow).map
          (mkSolver puzzle1 genPow).goals).getD
          (idxOfRC (mkSolver puzzle1 genPow).width g.row g.col) false = false)) :=
  ⟨by decide, c6_dead_squares_lfp (mkSolver puzzle1 genPow).width
    (mkSolver puzzle1 genPow).height (mkSolver puzzle1 genPow).map
    (mkSolver puzzle1 genPow).goals (by decide)⟩

end Sokoban
